import Mathlib

set_option autoImplicit false
set_option maxRecDepth 100000

deriving instance DecidableEq for Except

set_option allowUnsafeReducibility true in
attribute [semireducible] Rat.add Rat.mul Rat.sub Rat.inv

namespace Facs

/-- Column labels of a pandas dataframe: either a plain string label or a
2-tuple label (as produced by a pandas MultiIndex).  The engine's
`_apply_gate` flattens tuple labels to their second component in place. -/
inductive Col where
  | str (s : String)
  | tup (a b : String)
deriving DecidableEq

/-- Shallow embedding of a pandas event dataframe: labelled numeric columns
and rows of values; row `r` holds the value of column `cols[i]` at list
position `i`.  Machine floats are embedded as rationals. -/
structure DF where
  cols : List Col
  rows : List (List ℚ)
deriving DecidableEq

/-- Python exceptions that the gating engine can raise. -/
inductive Err where
  | typeError
  | channelNotFound (ch : String) (avail : List Col)
  | valueError (msg : String)
  | keyError (k : String)
  | unresolvedTree (pending : List String)
  | emptyPercentile
deriving DecidableEq

/-- Value of a row at column position `i` (rows are always as long as the
column list in well-formed frames; out-of-range defaults to 0). -/
def rowVal (r : List ℚ) (i : ℕ) : ℚ := r.getD i 0

/-- Position of the first column whose label is the plain string `m`,
starting the count at `i`. -/
def colIdxAux (m : String) : ℕ → List Col → Option ℕ
  | _, [] => none
  | i, c :: rest => if c = Col.str m then some i else colIdxAux m (i + 1) rest

/-- Position of the first column labelled by the plain string `m`
(pandas `df[m]` column selection). -/
def DF.colIdx (df : DF) (m : String) : Option ℕ := colIdxAux m 0 df.cols

/-- Membership test `m in df.columns` for a plain string label. -/
def colMem (cols : List Col) (m : String) : Bool := (colIdxAux m 0 cols).isSome

/-- Boolean-mask row filtering `df[mask]`: keeps the rows passing `p`,
columns untouched. -/
def DF.filterRows (df : DF) (p : List ℚ → Bool) : DF := ⟨df.cols, df.rows.filter p⟩

/-- Flattening of one column label: `c[1] if isinstance(c, tuple) else c`. -/
def normCol : Col → Col
  | .str s => .str s
  | .tup _ b => .str b

/-- The in-place column flattening performed at the top of `_apply_gate`:
`df.columns = [c[1] if isinstance(c, tuple) else c for c in df.columns]`. -/
def DF.normCols (df : DF) : DF := ⟨df.cols.map normCol, df.rows⟩

/-- First-match association lookup, the behaviour of Python `dict.get`. -/
def assocFind {α : Type} : List (String × α) → String → Option α
  | [], _ => none
  | (k, v) :: rest, key => if k = key then some v else assocFind rest key

/-- Test that the list `l` starts with the list `p`. -/
def beginsWith : List Char → List Char → Bool
  | [], _ => true
  | _ :: _, [] => false
  | p :: ps, c :: cs => if p = c then beginsWith ps cs else false

/-- Python `s.startswith(p)`. -/
def myStartsWith (s p : String) : Bool := beginsWith p.data s.data

/-- Whitespace characters recognised by Python `str.strip` / `str.split`. -/
def isPySpace (c : Char) : Bool :=
  decide (c = ' ' ∨ c = '\t' ∨ c = '\n' ∨ c = '\r' ∨ c = '\x0b' ∨ c = '\x0c')

/-- Python `str.strip()`: drop whitespace from both ends. -/
def pyStrip (l : List Char) : List Char :=
  ((l.dropWhile isPySpace).reverse.dropWhile isPySpace).reverse

/-- Accumulating worker for Python `str.split()` (split on whitespace runs,
no empty fields). -/
def pySplitAux : List Char → List Char → List (List Char)
  | [], acc => if acc = [] then [] else [acc.reverse]
  | c :: cs, acc =>
    if isPySpace c then
      if acc = [] then pySplitAux cs [] else acc.reverse :: pySplitAux cs []
    else pySplitAux cs (c :: acc)

/-- Python `str.split()` with no separator argument. -/
def pySplit (l : List Char) : List (List Char) := pySplitAux l []

/-- The literal suffix stripped by `_normalize_channel`. -/
def unmixPat : List Char := (" (SW-unmix)").data

/-- Fuel-indexed worker for `str.replace(" (SW-unmix)", "")`: scan left to
right, removing every non-overlapping occurrence of the pattern.  The fuel
is an upper bound on the length of the list, consumed one unit per step. -/
def stripUnmixAux : ℕ → List Char → List Char
  | 0, l => l
  | _ + 1, [] => []
  | n + 1, c :: cs =>
    if beginsWith unmixPat (c :: cs) then stripUnmixAux n ((c :: cs).drop 11)
    else c :: stripUnmixAux n cs

/-- Python `s.replace(" (SW-unmix)", "")`. -/
def stripUnmix (l : List Char) : List Char := stripUnmixAux l.length l

/-- Embedding of `_normalize_channel`:
`ch.replace(" (SW-unmix)", "").strip()`. -/
def normalizeChannel (ch : String) : String := String.mk (pyStrip (stripUnmix ch.data))

/-- Join of token lists with single spaces, Python `" ".join(parts)`. -/
def joinSpaces (parts : List (List Char)) : List Char := List.intercalate ([' ']) parts

/-- Embedding of `_strip_front_progressively`: candidates obtained by
dropping 1, 2, ... leading whitespace-delimited tokens. -/
def stripFrontCandidates (name : String) : List String :=
  let parts := pySplit name.data
  ((List.range parts.length).drop 1).map (fun i => String.mk (joinSpaces (parts.drop i)))

/-- One channel resolution step of `_validate_channels`: exact match, then
retry after `_normalize_channel`, then the progressive front-stripping
candidates, otherwise the channel-not-found error listing the columns. -/
def resolveChannel (cols : List Col) (ch : String) : Except Err String :=
  if colMem cols ch then .ok ch
  else
    let ch2 := normalizeChannel ch
    if colMem cols ch2 then .ok ch2
    else
      match (stripFrontCandidates ch2).find? (fun c => colMem cols c) with
      | some c => .ok c
      | none => .error (.channelNotFound ch cols)

/-- Embedding of `_validate_channels(df, channels)`: resolve each requested
channel in order, failing loudly at the first unresolvable one. -/
def validateChannelsList (cols : List Col) : List String → Except Err (List String)
  | [] => .ok []
  | ch :: rest =>
    match resolveChannel cols ch with
    | .error e => .error e
    | .ok c =>
      match validateChannelsList cols rest with
      | .error e => .error e
      | .ok cs => .ok (c :: cs)

/-- Minimum of a nonempty list given as head and tail (Python `min(...)`). -/
def listMinQ (v : ℚ) (vs : List ℚ) : ℚ := vs.foldl min v

/-- Maximum of a nonempty list given as head and tail (Python `max(...)`). -/
def listMaxQ (v : ℚ) (vs : List ℚ) : ℚ := vs.foldl max v

/-- The outer bin range chosen by `np.histogram`: (min, max) of the data,
widened by one half on each side when all values coincide, and numpy's
default range (0, 1) on empty input. -/
def histRange : List ℚ → ℚ × ℚ
  | [] => (0, 1)
  | v :: vs =>
    let lo := listMinQ v vs
    let hi := listMaxQ v vs
    if lo = hi then (lo - 1/2, lo + 1/2) else (lo, hi)

/-- Edge `i` of the 200 equal-width histogram bins over `[lo, hi]`
(`np.histogram` returns these as its `bins` array). -/
def binEdge (lo hi : ℚ) (i : ℕ) : ℚ := lo + (hi - lo) * i / 200

/-- Count of values in bin `i`: half-open `[edge i, edge (i+1))` except for
the last bin, which is closed on the right, as in `np.histogram`. -/
def binCount (values : List ℚ) (lo hi : ℚ) (i : ℕ) : ℕ :=
  if i = 199 then
    (values.filter (fun v => decide (binEdge lo hi 199 ≤ v ∧ v ≤ binEdge lo hi 200))).length
  else
    (values.filter (fun v => decide (binEdge lo hi i ≤ v ∧ v < binEdge lo hi (i + 1)))).length

/-- The 200 bin counts of `np.histogram(values, bins=200)`. -/
def histCounts (values : List ℚ) : List ℕ :=
  (List.range 200).map (fun i => binCount values (histRange values).1 (histRange values).2 i)

/-- Percentile `q` of a list with numpy's default linear interpolation on the
sorted data.  Junk value 0 on the empty list; `np.percentile` raises there,
and the call sites below guard that case explicitly. -/
def npPercentileAux (xs : List ℚ) (q : ℚ) : ℚ :=
  match xs with
  | [] => 0
  | _ :: _ =>
    let s := List.insertionSort (fun a b => a ≤ b) xs
    let h : ℚ := q / 100 * ((xs.length : ℚ) - 1)
    let i : ℕ := (Rat.floor h).toNat
    let lo := s.getD i 0
    let hi := s.getD (min (i + 1) (xs.length - 1)) 0
    lo + (h - (i : ℚ)) * (hi - lo)

/-- The low-density cutoff of `_compute_threshold`:
`np.percentile(hist, 20)` over the bin counts. -/
def lowBinCutoff (values : List ℚ) : ℚ :=
  npPercentileAux ((histCounts values).map (fun c => ((c : ℕ) : ℚ))) 20

/-- The elementwise comparison `hist < cutoff` at bin `i` (strict). -/
def lowBin (values : List ℚ) (i : ℕ) : Bool :=
  decide (((histCounts values).getD i 0 : ℚ) < lowBinCutoff values)

/-- Embedding of `_compute_threshold` (src/facsforge/core/thresholds.py):
200-bin histogram of the values, 20th percentile of the bin counts as a
low-density cutoff, `np.where(hist < cutoff)` — the index list of the bins
strictly below the cutoff — and the lower bin edge of its first index,
falling back to the 95th percentile of the raw values when no bin count is
below the cutoff.  The only failure path is `np.percentile` raising on an
empty value list. -/
def computeThreshold (values : List ℚ) : Except Err ℚ :=
  let lo := (histRange values).1
  let hi := (histRange values).2
  let idxs := (List.range 200).filter (lowBin values)
  match idxs with
  | [] =>
    match values with
    | [] => .error .emptyPercentile
    | _ :: _ => .ok (npPercentileAux values 95)
  | i :: _ => .ok (binEdge lo hi i)

/-- One panel entry: the `ignore` flag of a configured channel. -/
structure PanelEntry where
  ignore : Bool
deriving DecidableEq

/-- Values of the column labelled `m` (`df[marker]`). -/
def DF.colValsD (df : DF) (m : String) : List ℚ :=
  match df.colIdx m with
  | some i => df.rows.map (fun r => rowVal r i)
  | none => []

/-- Worker for `compute_auto_thresholds`, walking `df.columns` and
accumulating marker/threshold pairs in column order. -/
def autoThrGo (df : DF) (panel : List (String × PanelEntry)) :
    List Col → List (String × ℚ) → Except Err (List (String × ℚ))
  | [], acc => .ok acc
  | Col.tup _ _ :: rest, acc => autoThrGo df panel rest acc
  | Col.str m :: rest, acc =>
    match assocFind panel m with
    | none => autoThrGo df panel rest acc
    | some pinfo =>
      if pinfo.ignore then autoThrGo df panel rest acc
      else if myStartsWith m ("FSC") || myStartsWith m ("SSC") then autoThrGo df panel rest acc
      else
        match computeThreshold (df.colValsD m) with
        | .error e => .error e
        | .ok t => autoThrGo df panel rest (acc ++ [(m, t)])

/-- Embedding of `compute_auto_thresholds(df, experiment)`
(src/facsforge/core/thresholds.py): a threshold for every dataframe column
that is in the panel, is not flagged `ignore` and does not start with
`FSC` or `SSC`.  Tuple column labels are skipped because `panel.get`
cannot find them among the string panel keys. -/
def computeAutoThresholds (df : DF) (panel : List (String × PanelEntry)) :
    Except Err (List (String × ℚ)) :=
  autoThrGo df panel df.cols []

/-- Gate definitions, the tagged union read from the `gate` config dict:
the `type` discriminator with its shape-specific fields.  `unknown` stands
for any other value of the `type` field. -/
inductive GateDef where
  | threshold (channel : String) (min? : Option ℚ) (max? : Option ℚ)
  | rectangle (channels : List String) (vertices : List (ℚ × ℚ))
  | polygon (channels : List String) (vertices : List (ℚ × ℚ))
  | unknown (gtype : String)
deriving DecidableEq

/-- Python `min(v[0] for v in vertices)`: `none` models the `ValueError`
raised on an empty sequence. -/
def pyMinList : List ℚ → Option ℚ
  | [] => none
  | x :: xs => some (listMinQ x xs)

/-- Python `max(...)` over a possibly empty sequence. -/
def pyMaxList : List ℚ → Option ℚ
  | [] => none
  | x :: xs => some (listMaxQ x xs)

/-- Minimum of the x coordinates of the vertex list. -/
def vertMinX (vs : List (ℚ × ℚ)) : Option ℚ := pyMinList (vs.map Prod.fst)

/-- Maximum of the x coordinates of the vertex list. -/
def vertMaxX (vs : List (ℚ × ℚ)) : Option ℚ := pyMaxList (vs.map Prod.fst)

/-- Minimum of the y coordinates of the vertex list. -/
def vertMinY (vs : List (ℚ × ℚ)) : Option ℚ := pyMinList (vs.map Prod.snd)

/-- Maximum of the y coordinates of the vertex list. -/
def vertMaxY (vs : List (ℚ × ℚ)) : Option ℚ := pyMaxList (vs.map Prod.snd)

/-- Modelled from the spec: membership test of the flowkit `RectangleGate`
(the flowkit library itself is not part of this repository).  A row passes
iff both coordinates lie within the axis-aligned box, boundaries
inclusive. -/
def inRect (i1 i2 : ℕ) (x0 x1 y0 y1 : ℚ) (r : List ℚ) : Bool :=
  decide (x0 ≤ rowVal r i1 ∧ rowVal r i1 ≤ x1 ∧ y0 ≤ rowVal r i2 ∧ rowVal r i2 ≤ y1)

/-- Edge list of a polygon: consecutive vertex pairs, closing back to the
first vertex. -/
def polyEdges (vs : List (ℚ × ℚ)) : List ((ℚ × ℚ) × (ℚ × ℚ)) :=
  match vs with
  | [] => []
  | v :: _ => vs.zip (vs.drop 1 ++ [v])

/-- Point `p` lies on the closed segment from `a` to `b`. -/
def onSeg (a b p : ℚ × ℚ) : Bool :=
  decide ((b.1 - a.1) * (p.2 - a.2) = (b.2 - a.2) * (p.1 - a.1) ∧
    min a.1 b.1 ≤ p.1 ∧ p.1 ≤ max a.1 b.1 ∧ min a.2 b.2 ≤ p.2 ∧ p.2 ≤ max a.2 b.2)

/-- One step of the even-odd ray-casting rule: the edge from `a` to `b`
crosses the horizontal ray to the right of `p`. -/
def edgeCross (a b p : ℚ × ℚ) : Bool :=
  if (decide (a.2 ≤ p.2)) ≠ (decide (b.2 ≤ p.2)) then
    decide (p.1 < a.1 + (b.1 - a.1) * (p.2 - a.2) / (b.2 - a.2))
  else false

/-- Modelled from the spec: membership test of the flowkit `PolygonGate`
(the flowkit library itself is not part of this repository).  Standard
even-odd point-in-polygon, boundary inclusive. -/
def pointInPoly (vs : List (ℚ × ℚ)) (p : ℚ × ℚ) : Bool :=
  (polyEdges vs).any (fun e => onSeg e.1 e.2 p) ||
    (polyEdges vs).foldl (fun acc e => if edgeCross e.1 e.2 p then !acc else acc) false

/-- Result part of `_apply_gate(df, gate_def, gate_name)`
(src/facsforge/core/gating_engine.py).  The column flattening at the top of
the function happens before the dispatch on the gate type.  In the
`threshold` branch the source calls `_validate_channels([ch])` with a
single argument although `_validate_channels(df, channels)` takes two, so
that branch raises `TypeError` before any filtering.  The rectangle and
polygon membership masks are modelled from the spec (flowkit is external);
arity and emptiness failures of the vertex handling follow the source's
tuple unpacking and `min`/`max` calls. -/
def applyGateRes (df0 : DF) (g : GateDef) : Except Err DF :=
  let df := df0.normCols
  match g with
  | .polygon channels vertices =>
    match validateChannelsList df.cols channels with
    | .error e => .error e
    | .ok dims =>
      match dims with
      | [d1, d2] =>
        if vertices.length < 3 then .error (.valueError ("polygon needs at least 3 vertices"))
        else
          match df.colIdx d1, df.colIdx d2 with
          | some i1, some i2 =>
            .ok (df.filterRows (fun r => pointInPoly vertices (rowVal r i1, rowVal r i2)))
          | _, _ => .error .typeError
      | _ => .error (.valueError ("polygon gate needs exactly 2 dimensions"))
  | .rectangle channels vertices =>
    match validateChannelsList df.cols channels with
    | .error e => .error e
    | .ok dims =>
      match dims with
      | [d1, d2] =>
        match vertMinX vertices, vertMaxX vertices, vertMinY vertices, vertMaxY vertices with
        | some x0, some x1, some y0, some y1 =>
          match df.colIdx d1, df.colIdx d2 with
          | some i1, some i2 => .ok (df.filterRows (inRect i1 i2 x0 x1 y0 y1))
          | _, _ => .error .typeError
        | _, _, _, _ => .error (.valueError ("min arg is an empty sequence"))
      | _ => .error (.valueError ("cannot unpack channels"))
  | .threshold _ _ _ => .error .typeError
  | .unknown gtype => .error (.valueError gtype)

/-- Full effect of `_apply_gate`: the returned filtered frame (or the raised
exception) together with the state of the input frame after the call — its
column labels have been flattened in place. -/
def applyGate (df : DF) (g : GateDef) (_gateName : String) : Except Err DF × DF :=
  (applyGateRes df g, df.normCols)

/-- Keep test of one marker rule: positive rules keep `value > threshold`,
negative rules keep `value <= threshold`. -/
def markerKeep (pos : Bool) (v t : ℚ) : Bool :=
  if pos then decide (t < v) else decide (v ≤ t)

/-- One phase of `_apply_marker_rules`: walk the marker list in order; a
marker with no threshold is skipped and recorded as a warning, a marker
with a threshold but no matching column raises `KeyError`, otherwise the
subset narrows by the rule's comparison. -/
def applyRules (pos : Bool) (th : List (String × ℚ)) :
    DF → List String → List String → Except Err (DF × List String)
  | subset, warns, [] => .ok (subset, warns)
  | subset, warns, m :: ms =>
    match assocFind th m with
    | none => applyRules pos th subset (warns ++ [m]) ms
    | some t =>
      match subset.colIdx m with
      | none => .error (.keyError m)
      | some i =>
        applyRules pos th (subset.filterRows (fun r => markerKeep pos (rowVal r i) t)) warns ms

/-- One population definition (a `celltypes` entry of the YAML config). -/
structure Celltype where
  parent : Option String
  gate : Option GateDef
  positive : List String
  negative : List String
deriving DecidableEq

/-- Embedding of `_apply_marker_rules(df, rules, thresholds)`: positive
rules first, then negative rules, warnings accumulated across both. -/
def applyMarkerRules (df : DF) (rules : Celltype) (th : List (String × ℚ)) :
    Except Err (DF × List String) :=
  match applyRules true th df [] rules.positive with
  | .error e => .error e
  | .ok (s, w) => applyRules false th s w rules.negative

/-- The experiment configuration consumed by the gating tree: the panel and
the named population definitions. -/
structure Experiment where
  panel : List (String × PanelEntry)
  celltypes : List (String × Celltype)
deriving DecidableEq

/-- Mutable state of the `_run_gating_tree` loop: the root event table, the
populations gated so far, and the pending population names. -/
structure GState where
  dfRaw : DF
  gated : List (String × DF)
  pending : List String
deriving DecidableEq

/-- Where the parent table of the population being processed lives: the root
event table or a previously gated population. -/
inductive ParentLoc where
  | root
  | inGated (p : String)

/-- Replace the value stored under the first occurrence of a key. -/
def updateAssoc {α : Type} : List (String × α) → String → α → List (String × α)
  | [], _, _ => []
  | (k, v) :: rest, key, nv =>
    if k = key then (k, nv) :: rest else (k, v) :: updateAssoc rest key nv

/-- Remove the first occurrence of a name (Python `set.remove` on a set
represented as a duplicate-free list). -/
def eraseName : List String → String → List String
  | [], _ => []
  | x :: xs, k => if x = k then xs else x :: eraseName xs k

/-- Record a finished population: store its table and drop it from the
pending set. -/
def commit (st : GState) (ct : String) (d : DF) : GState :=
  ⟨st.dfRaw, st.gated ++ [(ct, d)], eraseName st.pending ct⟩

/-- Write back the in-place column flattening that `_apply_gate` performed
on the parent table. -/
def writeParent (st : GState) (loc : ParentLoc) (d : DF) : GState :=
  match loc with
  | .root => ⟨d, st.gated, st.pending⟩
  | .inGated p => ⟨st.dfRaw, updateAssoc st.gated p d, st.pending⟩

/-- Resolution step for a population whose parent table is available: apply
the geometric gate if present (this flattens the parent's columns in
place), then the marker rules, then commit. -/
def stepResolved (th : List (String × ℚ)) (st : GState) (ct : String) (cfg : Celltype)
    (dfParent : DF) (loc : ParentLoc) : Except Err GState :=
  match cfg.gate with
  | none =>
    match applyMarkerRules dfParent cfg th with
    | .error e => .error e
    | .ok (dfFinal, _) => .ok (commit st ct dfFinal)
  | some g =>
    let st1 := writeParent st loc dfParent.normCols
    match (applyGate dfParent g ct).1 with
    | .error e => .error e
    | .ok dfStage =>
      match applyMarkerRules dfStage cfg th with
      | .error e => .error e
      | .ok (dfFinal, _) => .ok (commit st1 ct dfFinal)

/-- One iteration of the inner `for ct in list(pending)` loop body: look up
the config, determine the parent table (skipping the population when its
parent is not gated yet), and resolve. -/
def stepCelltype (cts : List (String × Celltype)) (th : List (String × ℚ))
    (st : GState) (ct : String) : Except Err GState :=
  match assocFind cts ct with
  | none => .error (.keyError ct)
  | some cfg =>
    match cfg.parent with
    | none => stepResolved th st ct cfg st.dfRaw .root
    | some p =>
      match assocFind st.gated p with
      | none => .ok st
      | some dfp => stepResolved th st ct cfg dfp (.inGated p)

/-- Walk one snapshot of the pending list (Python `list(pending)`),
threading the state. -/
def runPassAux (cts : List (String × Celltype)) (th : List (String × ℚ)) :
    List String → GState → Except Err GState
  | [], st => .ok st
  | ct :: rest, st =>
    match stepCelltype cts th st ct with
    | .error e => .error e
    | .ok st1 => runPassAux cts th rest st1

/-- One full pass of the resolution loop over the currently pending set. -/
def runPass (cts : List (String × Celltype)) (th : List (String × ℚ))
    (st : GState) : Except Err GState :=
  runPassAux cts th st.pending st

/-- The bounded outer loop `for _ in range(max_iters)`: stop early when
nothing is pending. -/
def iterPasses (cts : List (String × Celltype)) (th : List (String × ℚ)) :
    ℕ → GState → Except Err GState
  | 0, st => .ok st
  | n + 1, st =>
    if st.pending = [] then .ok st
    else
      match runPass cts th st with
      | .error e => .error e
      | .ok st1 => iterPasses cts th n st1

/-- Embedding of `_run_gating_tree(df_raw, experiment)`
(src/facsforge/core/gating_engine.py): compute the thresholds once, then run
at most `len(pending) + 4` passes over the pending populations, resolving
each one as soon as its parent is available; raise `RuntimeError` listing
the still-pending names when the passes are exhausted. -/
def runGatingTree (dfRaw : DF) (exp : Experiment) : Except Err (List (String × DF)) :=
  match computeAutoThresholds dfRaw exp.panel with
  | .error e => .error e
  | .ok th =>
    let names := exp.celltypes.map Prod.fst
    match iterPasses exp.celltypes th (names.length + 4) ⟨dfRaw, [], names⟩ with
    | .error e => .error e
    | .ok final =>
      if final.pending = [] then .ok final.gated
      else .error (.unresolvedTree final.pending)

/-! Concrete frames, panels and experiments used by the witnesses and
counterexamples below. -/

/-- A small event frame with a single fluorescence column. -/
def dfEx : DF := ⟨[Col.str ("CD3")], [[1], [2], [3]]⟩

/-- An event frame whose only column has a time-convention name. -/
def dfTime : DF := ⟨[Col.str ("Time")], [[0], [1]]⟩

/-- A panel declaring the `Time` channel, not ignored. -/
def panelTime : List (String × PanelEntry) := [(("Time"), ⟨false⟩)]

/-- An event frame with a tuple column label, as a pandas MultiIndex
produces. -/
def dfTup : DF := ⟨[Col.tup ("a") ("b")], [[1]]⟩

/-- Root event frame of the worked gating example: scatter channels plus a
CD3 marker, four events. -/
def dfRoot : DF :=
  ⟨[Col.str ("FSC-A"), Col.str ("SSC-A"), Col.str ("CD3")],
    [[1, 1, 0], [2, 2, 10], [50, 50, 20], [200, 1, 3]]⟩

/-- Worked gating example: `P1` rectangle-gates scatter at the root, its
child `P2` additionally requires CD3-positive events. -/
def expAB : Experiment :=
  ⟨[(("CD3"), ⟨false⟩)],
    [(("P1"), ⟨none, some (GateDef.rectangle [("FSC-A"), ("SSC-A")] [(0, 0), (100, 100)]), [], []⟩),
     (("P2"), ⟨some ("P1"), none, [("CD3")], []⟩)]⟩

/-- The resolved table of population `P1` of the worked example. -/
def dfP1 : DF :=
  ⟨[Col.str ("FSC-A"), Col.str ("SSC-A"), Col.str ("CD3")],
    [[1, 1, 0], [2, 2, 10], [50, 50, 20]]⟩

/-- The resolved table of population `P2` of the worked example. -/
def dfP2 : DF :=
  ⟨[Col.str ("FSC-A"), Col.str ("SSC-A"), Col.str ("CD3")], [[50, 50, 20]]⟩

/-- The resolved population map of the worked example. -/
def gatedAB : List (String × DF) := [(("P1"), dfP1), (("P2"), dfP2)]

/-- An acyclic experiment whose only population has a rectangle gate on
channels that do not exist in the event frame. -/
def expBad : Experiment :=
  ⟨[], [(("A"), ⟨none, some (GateDef.rectangle [("x"), ("y")] [(0, 0), (1, 1)]), [], []⟩)]⟩

/-- The event frame used with `expBad`. -/
def dfSmall : DF := ⟨[Col.str ("a")], [[1]]⟩

/-- A three-population parent cycle `A -> B -> C -> A`. -/
def expCycle : Experiment :=
  ⟨[], [(("A"), ⟨some ("B"), none, [], []⟩), (("B"), ⟨some ("C"), none, [], []⟩),
        (("C"), ⟨some ("A"), none, [], []⟩)]⟩

/-! Claim C1. -/

/-- Claim C1 (code bug): the spec promises that a threshold gate returns the
rows whose channel value lies within the inclusive range, but the source's
threshold branch calls `_validate_channels([ch])` with one argument where
two are required, so every threshold gate raises `TypeError` before any
filtering: concretely on `dfEx` with range `[2, +inf)`, and in general for
every frame and every threshold gate. -/
theorem c1_threshold_gate_raises :
    applyGate dfEx (GateDef.threshold ("CD3") (some 2) none) ("g") =
      (Except.error Err.typeError, dfEx) ∧
    ∀ (df : DF) (ch : String) (mn mx : Option ℚ) (name : String),
      (applyGate df (GateDef.threshold ch mn mx) name).1 = Except.error Err.typeError := by
  exact ⟨by decide, fun _ _ _ _ _ => rfl⟩

/-! Claim C2. -/

/-- Columns fixed by `normCol` are left unchanged by the flattening map. -/
theorem mapNormColFixed : ∀ (l : List Col), (∀ c ∈ l, normCol c = c) → l.map normCol = l := by
  intro l h
  induction l with
  | nil => rfl
  | cons c rest ih =>
    simp only [List.map_cons]
    rw [h c (by simp), ih (fun c hc => h c (by simp [hc]))]

/-- Claim C2 is false as stated: applying a gate to a parent frame with a
tuple column label rewrites that label in place, so the parent table is
modified.  Here an unknown-type gate (the mutation precedes the dispatch on
the gate type) changes `dfTup`'s column list. -/
theorem c2_counterexample :
    (applyGate dfTup (GateDef.unknown ("weird")) ("g")).2 ≠ dfTup := by decide

/-- Claim C2 (amended): gate evaluation never changes the rows (values, row
set or row order) of the parent table, and when every column label is a
plain string — the case `normCol` fixes — the parent table is completely
unchanged; tuple column labels are flattened to their second component in
place. -/
theorem c2_amended (df : DF) (g : GateDef) (name : String) :
    (applyGate df g name).2.rows = df.rows ∧
      ((∀ c ∈ df.cols, normCol c = c) → (applyGate df g name).2 = df) := by
  constructor
  · rfl
  · intro h
    show df.normCols = df
    cases df with
    | mk cols rows => simp only [DF.normCols, mapNormColFixed cols h]

/-- Witness for the amended claim C2 at a concrete all-string frame. -/
theorem c2_amended_witness :
    (applyGate dfEx (GateDef.unknown ("weird")) ("g")).2.rows = dfEx.rows ∧
      (applyGate dfEx (GateDef.unknown ("weird")) ("g")).2 = dfEx :=
  ⟨(c2_amended dfEx (GateDef.unknown ("weird")) ("g")).1,
    (c2_amended dfEx (GateDef.unknown ("weird")) ("g")).2 (by decide)⟩

/-! Claim C3. -/

/-- Claim C3 is false as stated: the source only excludes channels starting
with `FSC` or `SSC` from automatic thresholds, not time-convention names.
The non-ignored panel channel `Time` receives the threshold 19/20 on a
two-event frame. -/
theorem c3_counterexample :
    computeAutoThresholds dfTime panelTime = Except.ok [(("Time"), 19/20)] := by decide

/-- Invariant of the threshold walker: every accumulated marker name avoids
the `FSC` and `SSC` prefixes. -/
theorem autoThrGo_no_scatter (df : DF) (panel : List (String × PanelEntry)) (cols : List Col) :
    ∀ (acc th : List (String × ℚ)),
      (∀ m t, (m, t) ∈ acc → myStartsWith m ("FSC") = false ∧ myStartsWith m ("SSC") = false) →
      autoThrGo df panel cols acc = Except.ok th →
      ∀ m t, (m, t) ∈ th → myStartsWith m ("FSC") = false ∧ myStartsWith m ("SSC") = false := by
  induction cols with
  | nil =>
    intro acc th hacc hok
    simp only [autoThrGo, Except.ok.injEq] at hok
    exact hok ▸ hacc
  | cons c rest ih =>
    intro acc th hacc hok
    match c with
    | .tup a b => exact ih acc th hacc hok
    | .str m =>
      simp only [autoThrGo] at hok
      split at hok
      · exact ih acc th hacc hok
      · split at hok
        · exact ih acc th hacc hok
        · split at hok
          case isTrue => exact ih acc th hacc hok
          case isFalse hscne =>
            split at hok
            · exact absurd hok (by simp)
            · next t0 heq =>
              refine ih (acc ++ [(m, t0)]) th ?_ hok
              intro m1 t1 hm1
              rcases List.mem_append.mp hm1 with h1 | h1
              · exact hacc m1 t1 h1
              · have hp : m1 = m ∧ t1 = t0 := by simpa using h1
                have hsc : (myStartsWith m ("FSC") || myStartsWith m ("SSC")) = false :=
                  eq_false_of_ne_true hscne
                rcases Bool.or_eq_false_iff.mp hsc with ⟨hf, hs⟩
                exact hp.1 ▸ ⟨hf, hs⟩

/-- Claim C3 (amended): the computed Threshold Table contains no entry for
any channel whose name starts with `FSC` or `SSC`; time-convention names
are not excluded (see the counterexample, where `Time` does receive an
automatic threshold). -/
theorem c3_amended (df : DF) (panel : List (String × PanelEntry))
    (th : List (String × ℚ)) (m : String) (t : ℚ)
    (hok : computeAutoThresholds df panel = Except.ok th) (hm : (m, t) ∈ th) :
    myStartsWith m ("FSC") = false ∧ myStartsWith m ("SSC") = false :=
  autoThrGo_no_scatter df panel df.cols [] th (by simp) hok m t hm

/-- Witness for the amended claim C3: the `Time` entry of the concrete
threshold table is not scatter-named. -/
theorem c3_amended_witness :
    myStartsWith ("Time") ("FSC") = false ∧ myStartsWith ("Time") ("SSC") = false :=
  c3_amended dfTime panelTime [(("Time"), 19/20)] ("Time") (19/20) (by decide) (by decide)

/-! Claim C9. -/

/-- Claim C9: the rectangle gate computes its axis-aligned box from the
min/max of the supplied vertices, so any two corner lists with the same
coordinate extrema — in particular permutations or duplications of one
list — produce the identical result on every frame. -/
theorem c9_rectangle_box_invariance (df : DF) (name1 name2 : String) (chs : List String)
    (vs1 vs2 : List (ℚ × ℚ))
    (hx0 : vertMinX vs1 = vertMinX vs2) (hx1 : vertMaxX vs1 = vertMaxX vs2)
    (hy0 : vertMinY vs1 = vertMinY vs2) (hy1 : vertMaxY vs1 = vertMaxY vs2) :
    applyGate df (GateDef.rectangle chs vs1) name1 =
      applyGate df (GateDef.rectangle chs vs2) name2 := by
  simp only [applyGate, applyGateRes]
  rw [hx0, hx1, hy0, hy1]

/-- Witness for claim C9: two opposite corners versus the duplicated full
four-corner list of the same box give the same gate application. -/
theorem c9_witness :
    applyGate dfRoot (GateDef.rectangle [("FSC-A"), ("SSC-A")] [(0, 0), (100, 100)]) ("P1") =
      applyGate dfRoot
        (GateDef.rectangle [("FSC-A"), ("SSC-A")]
          [(100, 0), (0, 100), (100, 100), (0, 0), (0, 100)]) ("Q1") :=
  c9_rectangle_box_invariance dfRoot ("P1") ("Q1") [("FSC-A"), ("SSC-A")] _ _
    (by decide) (by decide) (by decide) (by decide)

/-! Claims C7 and C10: the Marker Rule Applicator. -/

/-- Mapping twice over an `Except` composes. -/
theorem exceptMapMap {α β γ ε : Type} (f : α → β) (g : β → γ) (x : Except ε α) :
    (x.map f).map g = x.map (fun a => g (f a)) := by cases x <;> rfl

/-- The warning accumulator of `applyRules` is a pure prefix: running with
initial warnings `w` equals running with none and prepending `w`. -/
theorem applyRules_warnAccum (pos : Bool) (th : List (String × ℚ)) (ms : List String) :
    ∀ (df : DF) (w : List String),
      applyRules pos th df w ms =
        (applyRules pos th df [] ms).map (fun r => (r.1, w ++ r.2)) := by
  induction ms with
  | nil => intro df w; simp [applyRules, Except.map]
  | cons m ms ih =>
    intro df w
    cases ht : assocFind th m with
    | none =>
      simp only [applyRules, ht, List.nil_append]
      rw [ih df (w ++ [m]), ih df [m], exceptMapMap]
      simp
    | some t =>
      cases hi : DF.colIdx df m with
      | none => simp only [applyRules, ht, hi]; rfl
      | some i =>
        simp only [applyRules, ht, hi]
        exact ih _ w

/-- The filtered frame produced by `applyRules` does not depend on the
initial warning accumulator. -/
theorem applyRules_fst_indep (pos : Bool) (th : List (String × ℚ)) (ms : List String)
    (df : DF) (w w' : List String) :
    (applyRules pos th df w ms).map Prod.fst = (applyRules pos th df w' ms).map Prod.fst := by
  rw [applyRules_warnAccum pos th ms df w, applyRules_warnAccum pos th ms df w',
    exceptMapMap, exceptMapMap]

/-- On success the initial warning accumulator is a prefix of the final
warning list. -/
theorem applyRules_warnStart (pos : Bool) (th : List (String × ℚ)) (ms : List String)
    (df : DF) (w : List String) (s : DF) (ws : List String)
    (h : applyRules pos th df w ms = Except.ok (s, ws)) : ∃ ws0, ws = w ++ ws0 := by
  rw [applyRules_warnAccum pos th ms df w] at h
  cases hb : applyRules pos th df [] ms with
  | error e => rw [hb] at h; exact absurd h (by simp [Except.map])
  | ok r =>
    rw [hb] at h
    refine ⟨r.2, ?_⟩
    simpa using (congrArg (fun (x : DF × List String) => x.2) (Except.ok.inj h)).symm

/-- A marker with no threshold entry is skipped: dropping it from the rule
list leaves the resulting frame (and any error) unchanged. -/
theorem applyRules_skip_fst (pos : Bool) (th : List (String × ℚ)) (m : String)
    (hm : assocFind th m = none) (ms1 : List String) :
    ∀ (ms2 : List String) (df : DF) (w : List String),
      (applyRules pos th df w (ms1 ++ m :: ms2)).map Prod.fst =
        (applyRules pos th df w (ms1 ++ ms2)).map Prod.fst := by
  induction ms1 with
  | nil =>
    intro ms2 df w
    simp only [List.nil_append, applyRules, hm]
    exact applyRules_fst_indep pos th ms2 df (w ++ [m]) w
  | cons a ms1 ih =>
    intro ms2 df w
    cases ht : assocFind th a with
    | none => simp only [List.cons_append, applyRules, ht]; exact ih ms2 df (w ++ [a])
    | some t =>
      cases hi : DF.colIdx df a with
      | none => simp only [List.cons_append, applyRules, ht, hi]
      | some i => simp only [List.cons_append, applyRules, ht, hi]; exact ih ms2 _ w

/-- A skipped marker is recorded in the warning list whenever the rule
phase succeeds. -/
theorem applyRules_skip_warn (pos : Bool) (th : List (String × ℚ)) (m : String)
    (hm : assocFind th m = none) (ms1 : List String) :
    ∀ (ms2 : List String) (df : DF) (w : List String) (s : DF) (ws : List String),
      applyRules pos th df w (ms1 ++ m :: ms2) = Except.ok (s, ws) → m ∈ ws := by
  induction ms1 with
  | nil =>
    intro ms2 df w s ws h
    simp only [List.nil_append, applyRules, hm] at h
    obtain ⟨ws0, hws⟩ := applyRules_warnStart pos th ms2 df (w ++ [m]) s ws h
    simp [hws]
  | cons a ms1 ih =>
    intro ms2 df w s ws h
    cases ht : assocFind th a with
    | none =>
      simp only [List.cons_append, applyRules, ht] at h
      exact ih ms2 df (w ++ [a]) s ws h
    | some t =>
      cases hi : DF.colIdx df a with
      | none =>
        simp only [List.cons_append, applyRules, ht, hi] at h
        exact absurd h (by simp)
      | some i =>
        simp only [List.cons_append, applyRules, ht, hi] at h
        exact ih ms2 _ w s ws h

/-- Claim C7: a marker listed in `positive` or in `negative` that has no
entry in the Threshold Table is skipped with a warning rather than
failing: the resulting frame (or error) is exactly the one obtained with
that rule removed, and on success the skipped marker's name is among the
recorded warnings. -/
theorem c7_missing_threshold_skipped (df : DF) (th : List (String × ℚ))
    (par : Option String) (gt : Option GateDef) (m : String)
    (ms1 ms2 pos neg : List String) (hm : assocFind th m = none) :
    ((applyMarkerRules df ⟨par, gt, ms1 ++ m :: ms2, neg⟩ th).map Prod.fst =
        (applyMarkerRules df ⟨par, gt, ms1 ++ ms2, neg⟩ th).map Prod.fst ∧
      ∀ s ws, applyMarkerRules df ⟨par, gt, ms1 ++ m :: ms2, neg⟩ th = Except.ok (s, ws) →
        m ∈ ws) ∧
    ((applyMarkerRules df ⟨par, gt, pos, ms1 ++ m :: ms2⟩ th).map Prod.fst =
        (applyMarkerRules df ⟨par, gt, pos, ms1 ++ ms2⟩ th).map Prod.fst ∧
      ∀ s ws, applyMarkerRules df ⟨par, gt, pos, ms1 ++ m :: ms2⟩ th = Except.ok (s, ws) →
        m ∈ ws) := by
  refine ⟨⟨?_, ?_⟩, ⟨?_, ?_⟩⟩
  · simp only [applyMarkerRules]
    have h1 := applyRules_skip_fst true th m hm ms1 ms2 df []
    cases hw : applyRules true th df [] (ms1 ++ m :: ms2) with
    | error e =>
      rw [hw] at h1
      cases hw' : applyRules true th df [] (ms1 ++ ms2) with
      | error e' =>
        rw [hw'] at h1
        simp only [Except.map, Except.error.injEq] at h1
        simp [h1]
      | ok r' => rw [hw'] at h1; exact absurd h1 (by simp [Except.map])
    | ok r =>
      obtain ⟨s1, w1⟩ := r
      rw [hw] at h1
      cases hw' : applyRules true th df [] (ms1 ++ ms2) with
      | error e' => rw [hw'] at h1; exact absurd h1 (by simp [Except.map])
      | ok r' =>
        obtain ⟨s1', w1'⟩ := r'
        rw [hw'] at h1
        simp only [Except.map, Except.ok.injEq] at h1
        show (applyRules false th s1 w1 neg).map Prod.fst =
          (applyRules false th s1' w1' neg).map Prod.fst
        rw [h1]
        exact applyRules_fst_indep false th neg s1' w1 w1'
  · intro s ws h
    simp only [applyMarkerRules] at h
    cases hw : applyRules true th df [] (ms1 ++ m :: ms2) with
    | error e => rw [hw] at h; exact absurd h (by simp)
    | ok r =>
      obtain ⟨s1, w1⟩ := r
      rw [hw] at h
      have hmem : m ∈ w1 := applyRules_skip_warn true th m hm ms1 ms2 df [] s1 w1 hw
      have h2 : applyRules false th s1 w1 neg = Except.ok (s, ws) := h
      obtain ⟨ws0, hws⟩ := applyRules_warnStart false th neg s1 w1 s ws h2
      simp [hws, hmem]
  · simp only [applyMarkerRules]
    cases hw : applyRules true th df [] pos with
    | error e => rfl
    | ok r =>
      obtain ⟨s1, w1⟩ := r
      exact applyRules_skip_fst false th m hm ms1 ms2 s1 w1
  · intro s ws h
    simp only [applyMarkerRules] at h
    cases hw : applyRules true th df [] pos with
    | error e => rw [hw] at h; exact absurd h (by simp)
    | ok r =>
      obtain ⟨s1, w1⟩ := r
      rw [hw] at h
      have h2 : applyRules false th s1 w1 (ms1 ++ m :: ms2) = Except.ok (s, ws) := h
      exact applyRules_skip_warn false th m hm ms1 ms2 s1 w1 s ws h2

/-- Witness for claim C7 on a concrete frame: marker `CD19` is absent from
the threshold table, the rule is skipped and warned, and the run
succeeds. -/
theorem c7_witness :
    ((applyMarkerRules dfEx ⟨none, none, [], [("CD19")]⟩ [(("CD3"), 1)]).map Prod.fst =
        (applyMarkerRules dfEx ⟨none, none, [], []⟩ [(("CD3"), 1)]).map Prod.fst) ∧
      ∀ s ws, applyMarkerRules dfEx ⟨none, none, [], [("CD19")]⟩ [(("CD3"), 1)] =
          Except.ok (s, ws) → ("CD19") ∈ ws :=
  (c7_missing_threshold_skipped dfEx [(("CD3"), 1)] none none ("CD19") [] [] [] []
    (by decide)).2

/-- One marker rule as a row predicate: trivially true when the marker has
no threshold or no column (the applicable-rule reading), otherwise the
positive/negative comparison against the threshold. -/
def ruleHolds (pos : Bool) (cols : List Col) (th : List (String × ℚ)) (r : List ℚ)
    (m : String) : Bool :=
  match assocFind th m, colIdxAux m 0 cols with
  | some t, some i => markerKeep pos (rowVal r i) t
  | _, _ => true

/-- When every marker has a threshold and a column, one rule phase equals a
single filter by the conjunction of its rules. -/
theorem applyRules_filter (pos : Bool) (th : List (String × ℚ)) (ms : List String) :
    ∀ (df : DF) (w : List String),
      (∀ m ∈ ms, (assocFind th m).isSome ∧ (colIdxAux m 0 df.cols).isSome) →
      applyRules pos th df w ms =
        Except.ok (⟨df.cols, df.rows.filter (fun r => ms.all (ruleHolds pos df.cols th r))⟩, w) := by
  induction ms with
  | nil =>
    intro df w _
    simp [applyRules, List.all_nil, List.filter_true]
  | cons m ms ih =>
    intro df w h
    obtain ⟨hth, hcol⟩ := h m (by simp)
    obtain ⟨t, ht⟩ := Option.isSome_iff_exists.mp hth
    obtain ⟨i, hi⟩ := Option.isSome_iff_exists.mp hcol
    have hidx : DF.colIdx df m = some i := hi
    simp only [applyRules, ht, hidx]
    rw [ih (df.filterRows (fun r => markerKeep pos (rowVal r i) t)) w
      (fun m1 hm1 => h m1 (by simp [hm1]))]
    show Except.ok
        ((⟨df.cols, (df.rows.filter (fun r => markerKeep pos (rowVal r i) t)).filter
          (fun r => ms.all (ruleHolds pos df.cols th r))⟩ : DF), w) = _
    rw [List.filter_filter]
    have hpt : ∀ r ∈ df.rows,
        (ms.all (ruleHolds pos df.cols th r) && markerKeep pos (rowVal r i) t) =
          ((m :: ms).all (ruleHolds pos df.cols th r)) := by
      intro r _
      simp only [List.all_cons, ruleHolds, ht, hi, Bool.and_comm]
    rw [List.filter_congr hpt]

/-- A permutation of a list leaves `List.all` unchanged. -/
theorem permAllEq {α : Type} (p : α → Bool) {l l' : List α} (h : l.Perm l') :
    l.all p = l'.all p := by
  induction h with
  | nil => rfl
  | cons a _ ih => simp only [List.all_cons, ih]
  | swap a b l => simp only [List.all_cons, ← Bool.and_assoc, Bool.and_comm (p a) (p b)]
  | trans _ _ ih1 ih2 => rw [ih1, ih2]

/-- Claim C10 is false as stated: it quantifies over every dataframe and
threshold table, but a marker that has a threshold and is not a column
raises `KeyError` instead of producing the filtered row set. -/
theorem c10_counterexample :
    applyMarkerRules ⟨[Col.str ("CD3")], [[1]]⟩ ⟨none, none, [("CD8")], []⟩ [(("CD8"), 1)] =
      Except.error (Err.keyError ("CD8")) := by decide

/-- Claim C10 (amended): when every positive and negative marker has a
threshold entry and a dataframe column, the Marker Rule Applicator returns
exactly the rows satisfying every applicable rule — a single symmetric
conjunction, so the result is independent of the order of the markers
within each list and of the phase order — and it is invariant under
permutations of the positive and negative lists. -/
theorem c10_marker_rules_commute (df : DF) (th : List (String × ℚ))
    (par : Option String) (gt : Option GateDef) (pos pos' neg neg' : List String)
    (hpos : ∀ m ∈ pos, (assocFind th m).isSome ∧ (colIdxAux m 0 df.cols).isSome)
    (hneg : ∀ m ∈ neg, (assocFind th m).isSome ∧ (colIdxAux m 0 df.cols).isSome)
    (hp : pos.Perm pos') (hn : neg.Perm neg') :
    applyMarkerRules df ⟨par, gt, pos, neg⟩ th =
      Except.ok (⟨df.cols, df.rows.filter (fun r =>
        pos.all (ruleHolds true df.cols th r) && neg.all (ruleHolds false df.cols th r))⟩, []) ∧
    applyMarkerRules df ⟨par, gt, pos', neg'⟩ th = applyMarkerRules df ⟨par, gt, pos, neg⟩ th := by
  have key : ∀ (p n : List String), p.Perm pos → n.Perm neg →
      applyMarkerRules df ⟨par, gt, p, n⟩ th =
        Except.ok (⟨df.cols, df.rows.filter (fun r =>
          pos.all (ruleHolds true df.cols th r) && neg.all (ruleHolds false df.cols th r))⟩, []) := by
    intro p n hpp hnp
    have hp1 : ∀ m ∈ p, (assocFind th m).isSome ∧ (colIdxAux m 0 df.cols).isSome :=
      fun m hm => hpos m (hpp.mem_iff.mp hm)
    have hn1 : ∀ m ∈ n, (assocFind th m).isSome ∧ (colIdxAux m 0 df.cols).isSome :=
      fun m hm => hneg m (hnp.mem_iff.mp hm)
    simp only [applyMarkerRules]
    rw [applyRules_filter true th p df [] hp1]
    show applyRules false th
        (⟨df.cols, df.rows.filter (fun r => p.all (ruleHolds true df.cols th r))⟩ : DF) [] n = _
    rw [applyRules_filter false th n
      (⟨df.cols, df.rows.filter (fun r => p.all (ruleHolds true df.cols th r))⟩) [] hn1]
    show Except.ok
        ((⟨df.cols, (df.rows.filter (fun r => p.all (ruleHolds true df.cols th r))).filter
          (fun r => n.all (ruleHolds false df.cols th r))⟩ : DF), ([] : List String)) = _
    rw [List.filter_filter]
    have hpt : ∀ r ∈ df.rows,
        (n.all (ruleHolds false df.cols th r) && p.all (ruleHolds true df.cols th r)) =
          (pos.all (ruleHolds true df.cols th r) && neg.all (ruleHolds false df.cols th r)) := by
      intro r _
      rw [permAllEq (ruleHolds true df.cols th r) hpp, permAllEq (ruleHolds false df.cols th r) hnp,
        Bool.and_comm]
    rw [List.filter_congr hpt]
  exact ⟨key pos neg (List.Perm.refl pos) (List.Perm.refl neg),
    (key pos' neg' hp.symm hn.symm).trans (key pos neg (List.Perm.refl pos)
      (List.Perm.refl neg)).symm⟩

/-- Witness for the amended claim C10 at concrete lists: swapping the two
positive markers leaves the applicator's output unchanged and equal to the
conjunctive filter. -/
theorem c10_witness :
    applyMarkerRules dfRoot ⟨none, none, [("CD3"), ("FSC-A")], [("SSC-A")]⟩ [(("CD3"), 5), (("FSC-A"), 0), (("SSC-A"), 30)] =
      Except.ok (⟨dfRoot.cols, dfRoot.rows.filter (fun r =>
        [("CD3"), ("FSC-A")].all (ruleHolds true dfRoot.cols [(("CD3"), 5), (("FSC-A"), 0), (("SSC-A"), 30)] r) &&
        [("SSC-A")].all (ruleHolds false dfRoot.cols [(("CD3"), 5), (("FSC-A"), 0), (("SSC-A"), 30)] r))⟩, []) ∧
    applyMarkerRules dfRoot ⟨none, none, [("FSC-A"), ("CD3")], [("SSC-A")]⟩ [(("CD3"), 5), (("FSC-A"), 0), (("SSC-A"), 30)] =
      applyMarkerRules dfRoot ⟨none, none, [("CD3"), ("FSC-A")], [("SSC-A")]⟩ [(("CD3"), 5), (("FSC-A"), 0), (("SSC-A"), 30)] :=
  c10_marker_rules_commute dfRoot [(("CD3"), 5), (("FSC-A"), 0), (("SSC-A"), 30)] none none
    [("CD3"), ("FSC-A")] [("FSC-A"), ("CD3")] [("SSC-A")] [("SSC-A")]
    (by decide) (by decide) (List.Perm.swap ("FSC-A") ("CD3") []) (List.Perm.refl _)

/-! Claim C4: the Threshold Estimator matches its spec description. -/

/-- The first element satisfying a predicate is the head of the filtered
list (`np.where(...)[0][0]` versus find-first). -/
theorem find?_eq_filter_head? {α : Type} (p : α → Bool) :
    ∀ (l : List α), l.find? p = (l.filter p).head? := by
  intro l
  induction l with
  | nil => rfl
  | cons a l ih =>
    cases hp : p a with
    | true => rw [List.find?_cons_of_pos _ hp, List.filter_cons_of_pos hp, List.head?_cons]
    | false =>
      have hp' : ¬ p a = true := by simp [hp]
      rw [List.find?_cons_of_neg _ hp', List.filter_cons_of_neg hp', ih]

/-- The threshold as the spec words it: the lower edge of the first bin (in
ascending value order) whose count is strictly below the 20th percentile of
the bin counts, else the 95th percentile of the raw values.  This is the
spec-side definition compared against the source's `_compute_threshold`. -/
def specThreshold (values : List ℚ) : ℚ :=
  match (List.range 200).find? (lowBin values) with
  | some i => binEdge (histRange values).1 (histRange values).2 i
  | none => npPercentileAux values 95

/-- Claim C4: on every non-empty value list the source's threshold equals
the spec's first-low-bin-else-p95 description, and the computation is
deterministic (a pure function of the input values). -/
theorem c4_threshold_spec (values : List ℚ) (h : values ≠ []) :
    computeThreshold values = Except.ok (specThreshold values) ∧
      ∀ values', values' = values → computeThreshold values' = computeThreshold values := by
  refine ⟨?_, fun v hv => by rw [hv]⟩
  simp only [computeThreshold, specThreshold, find?_eq_filter_head?]
  cases hf : (List.range 200).filter (lowBin values) with
  | nil =>
    cases values with
    | nil => exact absurd rfl h
    | cons v vs => simp [hf]
  | cons i rest => simp [hf]

/-- Witness for claim C4 at the concrete value list `[0, 1]`. -/
theorem c4_witness :
    computeThreshold ([0, 1]) = Except.ok (specThreshold ([0, 1])) :=
  (c4_threshold_spec ([0, 1]) (by decide)).1

/-! Claim C5: the Channel Resolver's suffix stripping. -/

/-- A list begins with itself followed by anything. -/
theorem beginsWith_append (p t : List Char) : beginsWith p (p ++ t) = true := by
  induction p with
  | nil => rfl
  | cons c cs ih => simp [beginsWith, ih]

/-- A successful prefix test exhibits the remainder. -/
theorem beginsWith_exists (p : List Char) :
    ∀ (l : List Char), beginsWith p l = true → ∃ t, l = p ++ t := by
  induction p with
  | nil => intro l _; exact ⟨l, rfl⟩
  | cons c cs ih =>
    intro l h
    cases l with
    | nil => exact absurd h (by simp [beginsWith])
    | cons a as =>
      by_cases hc : c = a
      · subst hc
        obtain ⟨t, ht⟩ := ih as (by simpa [beginsWith] using h)
        exact ⟨t, by simp [ht]⟩
      · exact absurd h (by simp [beginsWith, hc])

/-- Occurrence of `p` as a contiguous substring of `l`. -/
def hasSub (p : List Char) : List Char → Bool
  | [] => beginsWith p []
  | c :: cs => beginsWith p (c :: cs) || hasSub p cs

/-- A prefix occurrence is an occurrence. -/
theorem hasSub_of_begins (p l : List Char) (h : beginsWith p l = true) :
    hasSub p l = true := by
  cases l with
  | nil => exact h
  | cons c cs => simp [hasSub, h]

/-- The stripped pattern has no nonempty proper border: none of its proper
suffixes is also a prefix of it. -/
theorem unmix_no_border :
    ∀ k : Fin 11, 0 < k.val → ¬ unmixPat.drop k.val = unmixPat.take (11 - k.val) := by decide

/-- When the pattern does not occur in `d` (nonempty), `d ++ pattern` does
not begin with the pattern: the only occurrence is the final one. -/
theorem beginsWith_unmix_append (d : List Char) (hd : d ≠ [])
    (hs : hasSub unmixPat d = false) :
    beginsWith unmixPat (d ++ unmixPat) = false := by
  cases hbw : beginsWith unmixPat (d ++ unmixPat) with
  | false => rfl
  | true =>
    exfalso
    obtain ⟨t, ht⟩ := beginsWith_exists unmixPat (d ++ unmixPat) hbw
    have h2 : (unmixPat ++ t).take 11 = unmixPat := by
      conv_lhs => rw [show (11 : ℕ) = unmixPat.length from by decide]
      exact List.take_left unmixPat t
    by_cases h11 : 11 ≤ d.length
    · have h1 : (d ++ unmixPat).take 11 = d.take 11 := by
        rw [List.take_append_eq_append_take, Nat.sub_eq_zero_of_le h11]
        simp
      have hp : unmixPat = d.take 11 := by
        calc unmixPat = (unmixPat ++ t).take 11 := h2.symm
          _ = (d ++ unmixPat).take 11 := by rw [ht]
          _ = d.take 11 := h1
      have hd2 : d = unmixPat ++ d.drop 11 := by
        conv_lhs => rw [← List.take_append_drop 11 d]
        rw [← hp]
      have hb : beginsWith unmixPat d = true := by
        rw [hd2]
        exact beginsWith_append unmixPat (d.drop 11)
      have := hasSub_of_begins unmixPat d hb
      rw [hs] at this
      exact Bool.false_ne_true this
    · push_neg at h11
      have hdlen : 1 ≤ d.length := by
        cases d with
        | nil => exact absurd rfl hd
        | cons _ _ => simp
      have h1 : (d ++ unmixPat).take 11 = d ++ unmixPat.take (11 - d.length) := by
        rw [List.take_append_eq_append_take, List.take_of_length_le (by omega)]
      have h3 : d ++ unmixPat.take (11 - d.length) = unmixPat := by
        rw [← h1, ht, h2]
      have h4 : unmixPat.drop d.length = unmixPat.take (11 - d.length) := by
        conv_lhs => rw [← h3]
        rw [List.drop_left]
      exact unmix_no_border ⟨d.length, by omega⟩ (show 0 < d.length by omega) h4

/-- The worker of the suffix replacement never touches the list before the
final pattern occurrence. -/
theorem stripUnmixAux_nil : ∀ (n : ℕ), stripUnmixAux n [] = []
  | 0 => rfl
  | _ + 1 => rfl

/-- Step equation of the replacement worker. -/
theorem stripUnmixAux_step (n : ℕ) (c : Char) (cs : List Char) :
    stripUnmixAux (n + 1) (c :: cs) =
      if beginsWith unmixPat (c :: cs) = true then stripUnmixAux n ((c :: cs).drop 11)
      else c :: stripUnmixAux n cs := rfl

/-- With enough fuel, stripping the pattern from `d ++ pattern` gives back
`d` whenever the pattern does not occur in `d`. -/
theorem stripUnmixAux_append : ∀ (d : List Char) (fuel : ℕ), d.length + 11 ≤ fuel →
    hasSub unmixPat d = false → stripUnmixAux fuel (d ++ unmixPat) = d := by
  intro d
  induction d with
  | nil =>
    intro fuel hf _
    cases fuel with
    | zero => omega
    | succ n =>
      rw [List.nil_append]
      show stripUnmixAux (n + 1) ((' ') :: (("(SW-unmix)")).data) = []
      rw [stripUnmixAux_step, if_pos (by decide)]
      rw [show ((' ') :: (("(SW-unmix)")).data).drop 11 = [] from by decide]
      exact stripUnmixAux_nil n
  | cons c cs ih =>
    intro fuel hf hs
    cases fuel with
    | zero => simp [List.length_cons] at hf
    | succ n =>
      rw [List.cons_append, stripUnmixAux_step]
      have hsplit : beginsWith unmixPat (c :: (cs ++ unmixPat)) = false := by
        have hb := beginsWith_unmix_append (c :: cs) (by simp) hs
        simpa [List.cons_append] using hb
      rw [if_neg (ne_true_of_eq_false hsplit)]
      have hs2 : hasSub unmixPat cs = false := by
        have hor : (beginsWith unmixPat (c :: cs) || hasSub unmixPat cs) = false := hs
        exact (Bool.or_eq_false_iff.mp hor).2
      have hf2 : cs.length + 11 ≤ n := by
        simp only [List.length_cons] at hf
        omega
      rw [ih n hf2 hs2]

/-- Python `replace` on `d ++ " (SW-unmix)"` gives back `d` when the
pattern does not occur in `d`. -/
theorem stripUnmix_append (d : List Char) (hs : hasSub unmixPat d = false) :
    stripUnmix (d ++ unmixPat) = d := by
  show stripUnmixAux (d ++ unmixPat).length (d ++ unmixPat) = d
  have hlen : (d ++ unmixPat).length = d.length + 11 := by
    rw [List.length_append]
    rfl
  rw [hlen]
  exact stripUnmixAux_append d (d.length + 11) le_rfl hs

/-- `_normalize_channel` recovers `C` from `C + " (SW-unmix)"` when the
pattern does not occur inside `C` and `C` carries no surrounding
whitespace. -/
theorem normalizeChannel_append (C : String) (hsub : hasSub unmixPat C.data = false)
    (hstrip : pyStrip C.data = C.data) :
    normalizeChannel (C ++ (" (SW-unmix)")) = C := by
  show String.mk (pyStrip (stripUnmix (C ++ (" (SW-unmix)")).data)) = C
  have hdata : (C ++ (" (SW-unmix)")).data = C.data ++ unmixPat := by
    cases C with
    | mk l => rfl
  rw [hdata, stripUnmix_append C.data hsub, hstrip]

/-- Claim C5 is false as stated: the resolver only strips the literal
suffix `" (SW-unmix)"`, not arbitrary parenthetical software-generated
suffixes.  The requested name `CD3 (unmixed)` fails to resolve against the
actual column `CD3`. -/
theorem c5_counterexample :
    resolveChannel [Col.str ("CD3")] ("CD3 (unmixed)") =
      Except.error (Err.channelNotFound ("CD3 (unmixed)") [Col.str ("CD3")]) := by decide

/-- Claim C5 (amended): for every actual column name `C` (not containing
the suffix pattern and with no surrounding whitespace) and the requested
name `C + " (SW-unmix)"`, when the requested name is not itself a column
the resolver strips the suffix and resolves to `C`. -/
theorem c5_amended (cols : List Col) (C : String)
    (hC : colMem cols C = true)
    (hreq : colMem cols (C ++ (" (SW-unmix)")) = false)
    (hsub : hasSub unmixPat C.data = false)
    (hstrip : pyStrip C.data = C.data) :
    resolveChannel cols (C ++ (" (SW-unmix)")) = Except.ok C := by
  simp only [resolveChannel, hreq, normalizeChannel_append C hsub hstrip, hC]
  simp

/-- Witness for the amended claim C5 on concrete data. -/
theorem c5_amended_witness :
    resolveChannel [Col.str ("CD3")] (("CD3") ++ (" (SW-unmix)")) = Except.ok ("CD3") :=
  c5_amended [Col.str ("CD3")] ("CD3") (by decide) (by decide) (by decide) (by decide)

/-! Claim C8: gates and marker rules only remove rows, and every resolved
population's table is a row subset of its parent's table. -/

/-- Lookup in a left-extended association list finds left entries first. -/
theorem assocFind_append_left {α : Type} (l1 l2 : List (String × α)) (k : String) (v : α)
    (h : assocFind l1 k = some v) : assocFind (l1 ++ l2) k = some v := by
  induction l1 with
  | nil => simp [assocFind] at h
  | cons a rest ih =>
    obtain ⟨a1, a2⟩ := a
    simp only [assocFind, List.cons_append] at h ⊢
    split at h
    · next heq => simp only [heq, if_pos rfl]; exact h
    · next heq => rw [if_neg heq]; exact ih h

/-- Lookup falls through to the right part when the left part misses. -/
theorem assocFind_append_right {α : Type} (l1 l2 : List (String × α)) (k : String)
    (h : assocFind l1 k = none) : assocFind (l1 ++ l2) k = assocFind l2 k := by
  induction l1 with
  | nil => rfl
  | cons a rest ih =>
    obtain ⟨a1, a2⟩ := a
    simp only [assocFind, List.cons_append] at h ⊢
    split at h
    · exact absurd h (by simp)
    · next heq => rw [if_neg heq]; exact ih h

/-- Updating a stored value with one of equal rows leaves the rows view of
every lookup unchanged. -/
theorem assocFind_updateAssoc_rows (l : List (String × DF)) (key : String) (nv : DF)
    (hv : ∀ v, assocFind l key = some v → nv.rows = v.rows) (k : String) :
    Option.map DF.rows (assocFind (updateAssoc l key nv) k) =
      Option.map DF.rows (assocFind l k) := by
  induction l with
  | nil => rfl
  | cons a rest ih =>
    obtain ⟨a1, a2⟩ := a
    by_cases hak : a1 = key
    · subst hak
      by_cases hk : a1 = k
      · subst hk
        have h2 : nv.rows = a2.rows := hv a2 (by simp [assocFind])
        simp [updateAssoc, assocFind, h2]
      · simp [updateAssoc, assocFind, hk]
    · by_cases hk : a1 = k
      · subst hk
        simp [updateAssoc, assocFind, hak]
      · simp only [updateAssoc, if_neg hak, assocFind, if_neg hk]
        exact ih (fun v hv1 => hv v (by simpa [assocFind, hak] using hv1))

/-- After updating a present key, looking it up yields the new value. -/
theorem assocFind_updateAssoc_self (l : List (String × DF)) (key : String) (nv v : DF)
    (h : assocFind l key = some v) : assocFind (updateAssoc l key nv) key = some nv := by
  induction l with
  | nil => simp [assocFind] at h
  | cons a rest ih =>
    obtain ⟨a1, a2⟩ := a
    by_cases hak : a1 = key
    · subst hak; simp [updateAssoc, assocFind]
    · simp only [updateAssoc, if_neg hak, assocFind, if_neg hak]
      exact ih (by simpa [assocFind, hak] using h)

/-- The row-subset invariant of the gating loop: every gated population has
a config entry, and its rows form a sublist of its parent's rows (of the
root event rows for parentless populations). -/
def rowsInv (cts : List (String × Celltype)) (rawRows : List (List ℚ))
    (gated : List (String × DF)) : Prop :=
  ∀ ct t, assocFind gated ct = some t →
    ∃ cfg, assocFind cts ct = some cfg ∧
      ((cfg.parent = none ∧ t.rows.Sublist rawRows) ∨
       (∃ p tp, cfg.parent = some p ∧ assocFind gated p = some tp ∧ t.rows.Sublist tp.rows))

/-- The invariant only depends on the rows view of the gated map. -/
theorem rowsInv_congr (cts : List (String × Celltype)) (rawRows : List (List ℚ))
    (g1 g2 : List (String × DF))
    (hmap : ∀ k, Option.map DF.rows (assocFind g2 k) = Option.map DF.rows (assocFind g1 k))
    (hinv : rowsInv cts rawRows g1) : rowsInv cts rawRows g2 := by
  intro ct t hct
  have hm := hmap ct
  cases hct1 : assocFind g1 ct with
  | none => rw [hct1, hct] at hm; simp at hm
  | some t1 =>
    have hrows : t.rows = t1.rows := by
      rw [hct1, hct] at hm; simpa using hm
    obtain ⟨cfg, hcfg, hcase⟩ := hinv ct t1 hct1
    refine ⟨cfg, hcfg, ?_⟩
    rcases hcase with ⟨hp, hsub⟩ | ⟨p, tp, hp, hlook, hsub⟩
    · exact Or.inl ⟨hp, hrows ▸ hsub⟩
    · have hmp := hmap p
      cases hlook2 : assocFind g2 p with
      | none => rw [hlook2, hlook] at hmp; simp at hmp
      | some tp2 =>
        have htp : tp2.rows = tp.rows := by
          rw [hlook2, hlook] at hmp; simpa using hmp
        exact Or.inr ⟨p, tp2, hp, hlook2, by rw [hrows, htp]; exact hsub⟩

/-- Appending a fresh entry whose rows are a sublist of its parent's
preserves the invariant. -/
theorem rowsInv_commit (cts : List (String × Celltype)) (rawRows : List (List ℚ))
    (gated : List (String × DF)) (ct : String) (d : DF) (cfg : Celltype)
    (hcfg : assocFind cts ct = some cfg)
    (hnew : (cfg.parent = none ∧ d.rows.Sublist rawRows) ∨
      (∃ p tp, cfg.parent = some p ∧ assocFind gated p = some tp ∧ d.rows.Sublist tp.rows))
    (hinv : rowsInv cts rawRows gated) :
    rowsInv cts rawRows (gated ++ [(ct, d)]) := by
  intro k t hk
  cases hg : assocFind gated k with
  | some v =>
    rw [assocFind_append_left gated [(ct, d)] k v hg] at hk
    obtain ⟨cfg1, hcfg1, hcase⟩ := hinv k v hg
    have hv : v = t := by simpa using hk
    subst hv
    refine ⟨cfg1, hcfg1, ?_⟩
    rcases hcase with ⟨hp, hsub⟩ | ⟨p, tp, hp, hlook, hsub⟩
    · exact Or.inl ⟨hp, hsub⟩
    · exact Or.inr ⟨p, tp, hp, assocFind_append_left gated [(ct, d)] p tp hlook, hsub⟩
  | none =>
    rw [assocFind_append_right gated [(ct, d)] k hg] at hk
    simp only [assocFind] at hk
    split at hk
    · next heq =>
      subst heq
      have hd : d = t := by simpa using hk
      subst hd
      refine ⟨cfg, hcfg, ?_⟩
      rcases hnew with ⟨hp, hsub⟩ | ⟨p, tp, hp, hlook, hsub⟩
      · exact Or.inl ⟨hp, hsub⟩
      · exact Or.inr ⟨p, tp, hp, assocFind_append_left gated [(ct, d)] p tp hlook, hsub⟩
    · exact absurd hk (by simp)

/-- Gate evaluation (when it succeeds) returns a row sublist of its input
frame. -/
theorem applyGateRes_rows (df : DF) (g : GateDef) (r : DF)
    (h : applyGateRes df g = Except.ok r) : r.rows.Sublist df.rows := by
  cases g <;> simp only [applyGateRes] at h <;> repeat' split at h
  all_goals first
    | exact Except.noConfusion h
    | (rw [← Except.ok.inj h]; exact List.filter_sublist df.rows)

/-- One marker-rule phase returns a row sublist of its input frame. -/
theorem applyRules_rows (pos : Bool) (th : List (String × ℚ)) (ms : List String) :
    ∀ (df : DF) (w : List String) (s : DF) (ws : List String),
      applyRules pos th df w ms = Except.ok (s, ws) → s.rows.Sublist df.rows := by
  induction ms with
  | nil =>
    intro df w s ws h
    simp only [applyRules, Except.ok.injEq, Prod.mk.injEq] at h
    rw [← h.1]
  | cons m ms ih =>
    intro df w s ws h
    simp only [applyRules] at h
    split at h
    · exact ih df (w ++ [m]) s ws h
    · split at h
      · exact absurd h (by simp)
      · exact (ih _ w s ws h).trans (List.filter_sublist df.rows)

/-- The Marker Rule Applicator returns a row sublist of its input frame. -/
theorem applyMarkerRules_rows (df : DF) (rules : Celltype) (th : List (String × ℚ))
    (s : DF) (ws : List String)
    (h : applyMarkerRules df rules th = Except.ok (s, ws)) : s.rows.Sublist df.rows := by
  simp only [applyMarkerRules] at h
  cases hw : applyRules true th df [] rules.positive with
  | error e => rw [hw] at h; exact absurd h (by simp)
  | ok r =>
    obtain ⟨s1, w1⟩ := r
    rw [hw] at h
    exact (applyRules_rows false th rules.negative s1 w1 s ws h).trans
      (applyRules_rows true th rules.positive df [] s1 w1 hw)

/-- A resolution step preserves the root rows and the row-subset
invariant. -/
theorem stepResolved_inv (th : List (String × ℚ)) (cts : List (String × Celltype))
    (rawRows : List (List ℚ)) (st st' : GState) (ct : String) (cfg : Celltype)
    (dfParent : DF) (loc : ParentLoc)
    (hcfg : assocFind cts ct = some cfg)
    (hloc : match loc with
      | .root => dfParent = st.dfRaw ∧ cfg.parent = none
      | .inGated p => assocFind st.gated p = some dfParent ∧ cfg.parent = some p)
    (h : stepResolved th st ct cfg dfParent loc = Except.ok st')
    (hr : st.dfRaw.rows = rawRows)
    (hinv : rowsInv cts rawRows st.gated) :
    st'.dfRaw.rows = rawRows ∧ rowsInv cts rawRows st'.gated := by
  simp only [stepResolved] at h
  split at h
  · -- no geometric gate
    split at h
    · exact absurd h (by simp)
    · next dfFinal w hmr =>
      have hst' : st' = commit st ct dfFinal := by
        have h2 := h
        injection h2 with h2
        exact h2.symm
      subst hst'
      refine ⟨hr, ?_⟩
      refine rowsInv_commit cts rawRows st.gated ct dfFinal cfg hcfg ?_ hinv
      have hsub := applyMarkerRules_rows dfParent cfg th dfFinal w hmr
      cases loc with
      | root =>
        obtain ⟨hdp, hp⟩ := hloc
        exact Or.inl ⟨hp, by rw [← hr, ← hdp]; exact hsub⟩
      | inGated p =>
        obtain ⟨hlook, hp⟩ := hloc
        exact Or.inr ⟨p, dfParent, hp, hlook, hsub⟩
  · -- geometric gate
    next g hg =>
    split at h
    · exact absurd h (by simp)
    · next dfStage hgate =>
      split at h
      · exact absurd h (by simp)
      · next dfFinal w hmr =>
        have hst' : st' = commit (writeParent st loc dfParent.normCols) ct dfFinal := by
          have h2 := h
          injection h2 with h2
          exact h2.symm
        subst hst'
        have hgsub : dfStage.rows.Sublist dfParent.rows :=
          applyGateRes_rows dfParent g dfStage hgate
        have hsub : dfFinal.rows.Sublist dfParent.rows :=
          (applyMarkerRules_rows dfStage cfg th dfFinal w hmr).trans hgsub
        cases loc with
        | root =>
          obtain ⟨hdp, hp⟩ := hloc
          subst hdp
          refine ⟨hr, ?_⟩
          refine rowsInv_commit cts rawRows st.gated ct dfFinal cfg hcfg ?_ hinv
          exact Or.inl ⟨hp, by rw [← hr]; exact hsub⟩
        | inGated p =>
          obtain ⟨hlook, hp⟩ := hloc
          refine ⟨hr, ?_⟩
          have hinv1 : rowsInv cts rawRows (updateAssoc st.gated p dfParent.normCols) :=
            rowsInv_congr cts rawRows st.gated _
              (assocFind_updateAssoc_rows st.gated p dfParent.normCols
                (fun v hv => by
                  rw [hlook] at hv
                  injection hv with hv
                  subst hv
                  exact rfl)) hinv
          refine rowsInv_commit cts rawRows _ ct dfFinal cfg hcfg ?_ hinv1
          exact Or.inr ⟨p, dfParent.normCols, hp,
            assocFind_updateAssoc_self st.gated p dfParent.normCols dfParent hlook, hsub⟩

/-- One inner-loop iteration preserves the invariant. -/
theorem stepCelltype_inv (cts : List (String × Celltype)) (th : List (String × ℚ))
    (rawRows : List (List ℚ)) (st st' : GState) (ct : String)
    (h : stepCelltype cts th st ct = Except.ok st')
    (hr : st.dfRaw.rows = rawRows)
    (hinv : rowsInv cts rawRows st.gated) :
    st'.dfRaw.rows = rawRows ∧ rowsInv cts rawRows st'.gated := by
  simp only [stepCelltype] at h
  split at h
  · exact absurd h (by simp)
  · next cfg hcfg =>
    split at h
    · next hpar =>
      exact stepResolved_inv th cts rawRows st st' ct cfg st.dfRaw .root hcfg ⟨rfl, hpar⟩ h hr hinv
    · next p hpar =>
      split at h
      · have hst : st = st' := by
          injection h
        subst hst
        exact ⟨hr, hinv⟩
      · next dfp hdfp =>
        exact stepResolved_inv th cts rawRows st st' ct cfg dfp (.inGated p) hcfg ⟨hdfp, hpar⟩
          h hr hinv

/-- A full pass preserves the invariant. -/
theorem runPassAux_inv (cts : List (String × Celltype)) (th : List (String × ℚ))
    (rawRows : List (List ℚ)) :
    ∀ (L : List String) (st st' : GState), runPassAux cts th L st = Except.ok st' →
      st.dfRaw.rows = rawRows → rowsInv cts rawRows st.gated →
      st'.dfRaw.rows = rawRows ∧ rowsInv cts rawRows st'.gated := by
  intro L
  induction L with
  | nil =>
    intro st st' h hr hinv
    have hst : st = st' := by injection h
    subst hst
    exact ⟨hr, hinv⟩
  | cons ct rest ih =>
    intro st st' h hr hinv
    simp only [runPassAux] at h
    split at h
    · exact absurd h (by simp)
    · next st1 hstep =>
      obtain ⟨hr1, hinv1⟩ := stepCelltype_inv cts th rawRows st st1 ct hstep hr hinv
      exact ih st1 st' h hr1 hinv1

/-- Every bounded pass sequence preserves the invariant. -/
theorem iterPasses_inv (cts : List (String × Celltype)) (th : List (String × ℚ))
    (rawRows : List (List ℚ)) :
    ∀ (fuel : ℕ) (st st' : GState), iterPasses cts th fuel st = Except.ok st' →
      st.dfRaw.rows = rawRows → rowsInv cts rawRows st.gated →
      st'.dfRaw.rows = rawRows ∧ rowsInv cts rawRows st'.gated := by
  intro fuel
  induction fuel with
  | zero =>
    intro st st' h hr hinv
    have hst : st = st' := by injection h
    subst hst
    exact ⟨hr, hinv⟩
  | succ n ih =>
    intro st st' h hr hinv
    simp only [iterPasses] at h
    split at h
    · have hst : st = st' := by injection h
      subst hst
      exact ⟨hr, hinv⟩
    · split at h
      · exact absurd h (by simp)
      · next st1 hpass =>
        obtain ⟨hr1, hinv1⟩ := runPassAux_inv cts th rawRows st.pending st st1 hpass hr hinv
        exact ih st1 st' h hr1 hinv1

/-- Claim C8: successful gate applications and marker-rule applications
only remove rows, and for every population that resolves successfully the
resolved table's rows are a subset (with multiplicity and order) of its
parent table's rows — at most as many rows as the parent, each of them a
parent row. -/
theorem c8_rows_shrink :
    (∀ (df : DF) (g : GateDef) (name : String) (r : DF),
      (applyGate df g name).1 = Except.ok r →
        r.rows.length ≤ df.rows.length ∧ ∀ x ∈ r.rows, x ∈ df.rows) ∧
    (∀ (df : DF) (rules : Celltype) (th : List (String × ℚ)) (s : DF) (ws : List String),
      applyMarkerRules df rules th = Except.ok (s, ws) →
        s.rows.length ≤ df.rows.length ∧ ∀ x ∈ s.rows, x ∈ df.rows) ∧
    (∀ (df : DF) (exp : Experiment) (gated : List (String × DF)),
      runGatingTree df exp = Except.ok gated →
      ∀ ct t, assocFind gated ct = some t →
        ∃ cfg, assocFind exp.celltypes ct = some cfg ∧
          ((cfg.parent = none ∧ t.rows.length ≤ df.rows.length ∧ ∀ x ∈ t.rows, x ∈ df.rows) ∨
           (∃ p tp, cfg.parent = some p ∧ assocFind gated p = some tp ∧
             t.rows.length ≤ tp.rows.length ∧ ∀ x ∈ t.rows, x ∈ tp.rows))) := by
  refine ⟨?_, ?_, ?_⟩
  · intro df g name r h
    have hs := applyGateRes_rows df g r h
    exact ⟨hs.length_le, fun x hx => hs.subset hx⟩
  · intro df rules th s ws h
    have hs := applyMarkerRules_rows df rules th s ws h
    exact ⟨hs.length_le, fun x hx => hs.subset hx⟩
  · intro df exp gated h ct t hct
    simp only [runGatingTree] at h
    split at h
    · exact absurd h (by simp)
    · next th hth =>
      split at h
      · exact absurd h (by simp)
      · next final hiter =>
        split at h
        · have hg : final.gated = gated := by simpa using h
          obtain ⟨_, hinv⟩ := iterPasses_inv exp.celltypes th df.rows
            ((exp.celltypes.map Prod.fst).length + 4) ⟨df, [], exp.celltypes.map Prod.fst⟩
            final hiter rfl (fun k t hk => by simp [assocFind] at hk)
          rw [← hg] at hct
          obtain ⟨cfg, hcfg, hcase⟩ := hinv ct t hct
          refine ⟨cfg, hcfg, ?_⟩
          rcases hcase with ⟨hp, hsub⟩ | ⟨p, tp, hp, hlook, hsub⟩
          · exact Or.inl ⟨hp, hsub.length_le, fun x hx => hsub.subset hx⟩
          · exact Or.inr ⟨p, tp, hp, hg ▸ hlook, hsub.length_le, fun x hx => hsub.subset hx⟩
        · exact absurd h (by simp)

/-- Witness for claim C8 on the worked example: population `P2` resolves
to at most as many rows as its parent `P1`. -/
theorem c8_witness : dfP2.rows.length ≤ dfP1.rows.length := by
  have h := c8_rows_shrink.2.2 dfRoot expAB gatedAB (by decide) ("P2") dfP2 (by decide)
  obtain ⟨cfg, hcfg, hcase⟩ := h
  have hcfg2 : cfg = (⟨some ("P1"), none, [("CD3")], []⟩ : Celltype) := by
    have : assocFind expAB.celltypes ("P2") =
        some (⟨some ("P1"), none, [("CD3")], []⟩ : Celltype) := by decide
    rw [this] at hcfg
    exact (Option.some.inj hcfg).symm
  subst hcfg2
  rcases hcase with ⟨hp, _⟩ | ⟨p, tp, hp, hlook, hlen, _⟩
  · exact absurd hp (by simp)
  · have hp1 : p = ("P1") := by
      have := Option.some.inj hp
      exact this.symm
    subst hp1
    have htp : tp = dfP1 := by
      have : assocFind gatedAB ("P1") = some dfP1 := by decide
      rw [this] at hlook
      exact (Option.some.inj hlook).symm
    subst htp
    exact hlen

/-! Claim C6: the Population Graph Resolver terminates within the pass
bound, reports cycles, and resolves every population of an acyclic graph
whose gate evaluations succeed. -/

/-- Column membership as list membership of the string label. -/
theorem colIdxAux_isSome (m : String) : ∀ (cols : List Col) (i : ℕ),
    (colIdxAux m i cols).isSome = true ↔ Col.str m ∈ cols := by
  intro cols
  induction cols with
  | nil => intro i; simp [colIdxAux]
  | cons c rest ih =>
    intro i
    by_cases hc : c = Col.str m
    · subst hc; simp [colIdxAux]
    · have hc2 : ¬ Col.str m = c := fun h => hc h.symm
      simp [colIdxAux, hc, hc2, ih (i + 1)]

/-- Association lookup succeeds exactly on the stored keys. -/
theorem assocFind_isSome_iff {α : Type} : ∀ (l : List (String × α)) (k : String),
    (assocFind l k).isSome = true ↔ k ∈ l.map Prod.fst := by
  intro l
  induction l with
  | nil => intro k; simp [assocFind]
  | cons a rest ih =>
    intro k
    obtain ⟨a1, a2⟩ := a
    by_cases hk : a1 = k
    · subst hk; simp [assocFind]
    · have hk2 : ¬ k = a1 := fun h => hk h.symm
      simp [assocFind, hk, hk2, ih k]

/-- A successful association lookup exhibits a list member. -/
theorem assocFind_mem {α : Type} : ∀ (l : List (String × α)) (k : String) (v : α),
    assocFind l k = some v → (k, v) ∈ l := by
  intro l
  induction l with
  | nil => intro k v h; simp [assocFind] at h
  | cons a rest ih =>
    intro k v h
    obtain ⟨a1, a2⟩ := a
    simp only [assocFind] at h
    split at h
    · next heq =>
      subst heq
      have : a2 = v := by simpa using h
      subst this
      simp
    · exact List.mem_cons_of_mem _ (ih k v h)

/-- Removing a name yields a sublist. -/
theorem eraseName_sublist : ∀ (l : List String) (k : String), (eraseName l k).Sublist l := by
  intro l k
  induction l with
  | nil => exact List.Sublist.refl []
  | cons x xs ih =>
    by_cases hx : x = k
    · simp only [eraseName, if_pos hx]
      exact List.sublist_cons_self x xs
    · simp only [eraseName, if_neg hx]
      exact ih.cons₂ x

/-- Removing a different name keeps membership. -/
theorem eraseName_mem : ∀ (l : List String) (k x : String), x ≠ k → x ∈ l →
    x ∈ eraseName l k := by
  intro l k x hxk
  induction l with
  | nil => intro h; exact absurd h (by simp)
  | cons y ys ih =>
    intro h
    by_cases hy : y = k
    · simp only [eraseName, if_pos hy]
      rcases List.mem_cons.mp h with h1 | h1
      · exact absurd (h1.trans hy) hxk
      · exact h1
    · simp only [eraseName, if_neg hy]
      rcases List.mem_cons.mp h with h1 | h1
      · exact h1 ▸ List.mem_cons_self x _
      · exact List.mem_cons_of_mem y (ih h1)

/-- On a duplicate-free list, the removed name is gone. -/
theorem eraseName_not_mem : ∀ (l : List String), l.Nodup → ∀ (k : String),
    k ∉ eraseName l k := by
  intro l
  induction l with
  | nil => intro _ k h; simp [eraseName] at h
  | cons x xs ih =>
    intro hnd k
    by_cases hx : x = k
    · subst hx
      simp only [eraseName, if_pos rfl]
      exact (List.nodup_cons.mp hnd).1
    · simp only [eraseName, if_neg hx]
      intro h
      rcases List.mem_cons.mp h with h1 | h1
      · exact hx h1.symm
      · exact ih (List.nodup_cons.mp hnd).2 k h1

/-- A strict sublist missing a member is strictly shorter. -/
theorem sublist_length_lt {l' l : List String} (h : l'.Sublist l) (x : String)
    (hx : x ∈ l) (hx' : x ∉ l') : l'.length < l.length := by
  rcases Nat.lt_or_ge l'.length l.length with h1 | h1
  · exact h1
  · exact absurd (h.eq_of_length_le h1 ▸ hx) hx'

/-- Every nonempty list has an element of minimal image. -/
theorem list_argmin {α : Type} (f : α → ℕ) : ∀ (l : List α), l ≠ [] →
    ∃ a ∈ l, ∀ b ∈ l, f a ≤ f b := by
  intro l
  induction l with
  | nil => intro h; exact absurd rfl h
  | cons x xs ih =>
    intro _
    by_cases hxs : xs = []
    · subst hxs; exact ⟨x, by simp, by simp⟩
    · obtain ⟨m, hm, hmin⟩ := ih hxs
      rcases Nat.le_total (f x) (f m) with hc | hc
      · refine ⟨x, by simp, ?_⟩
        intro b hb
        rcases List.mem_cons.mp hb with h1 | h1
        · exact h1 ▸ Nat.le_refl _
        · exact hc.trans (hmin b h1)
      · refine ⟨m, List.mem_cons_of_mem x hm, ?_⟩
        intro b hb
        rcases List.mem_cons.mp hb with h1 | h1
        · exact h1 ▸ hc
        · exact hmin b h1

/-- Flattening column labels is idempotent. -/
theorem normCol_idem (c : Col) : normCol (normCol c) = normCol c := by
  cases c <;> rfl

/-- The two column states a table can be in during a run: the raw columns
or their flattened form. -/
def colsOk (dfCols : List Col) (c : List Col) : Prop :=
  c = dfCols ∨ c = dfCols.map normCol

/-- Flattening either column state gives the flattened state. -/
theorem colsOk_map (dfCols : List Col) (c : List Col) (h : colsOk dfCols c) :
    c.map normCol = dfCols.map normCol := by
  rcases h with h | h
  · rw [h]
  · rw [h, List.map_map]
    exact List.map_congr_left (fun a _ => normCol_idem a)

/-- A raw string column survives into either column state. -/
theorem colsOk_strMem (dfCols : List Col) (c : List Col) (h : colsOk dfCols c)
    (m : String) (hm : Col.str m ∈ dfCols) : Col.str m ∈ c := by
  rcases h with h | h
  · rw [h]; exact hm
  · rw [h]
    exact List.mem_map.mpr ⟨Col.str m, hm, rfl⟩

/-- A successfully resolved channel is an actual column. -/
theorem resolveChannel_mem (cols : List Col) (ch c : String)
    (h : resolveChannel cols ch = Except.ok c) : colMem cols c = true := by
  simp only [resolveChannel] at h
  split at h
  · next hc =>
    have : ch = c := by simpa using h
    exact this ▸ hc
  · split at h
    · next hc2 =>
      have : normalizeChannel ch = c := by simpa using h
      exact this ▸ hc2
    · split at h
      · next c0 hfind =>
        have : c0 = c := by simpa using h
        exact this ▸ List.find?_some hfind
      · exact Except.noConfusion h

/-- A successful channel validation resolves as many channels as requested,
each to an actual column. -/
theorem validateChannelsList_ok_props (cols : List Col) : ∀ (chs ds : List String),
    validateChannelsList cols chs = Except.ok ds →
    ds.length = chs.length ∧ ∀ d ∈ ds, colMem cols d = true := by
  intro chs
  induction chs with
  | nil =>
    intro ds h
    simp only [validateChannelsList, Except.ok.injEq] at h
    subst h
    simp
  | cons ch rest ih =>
    intro ds h
    simp only [validateChannelsList] at h
    split at h
    · exact Except.noConfusion h
    · next c hres =>
      split at h
      · exact Except.noConfusion h
      · next cs hcs =>
        have hd : ds = c :: cs := (Except.ok.inj h).symm
        subst hd
        obtain ⟨hl, hm⟩ := ih cs hcs
        refine ⟨by simp [hl], ?_⟩
        intro d hd
        rcases List.mem_cons.mp hd with h1 | h1
        · exact h1 ▸ resolveChannel_mem cols ch c hres
        · exact hm d h1

/-- Sufficient conditions, in terms of the flattened column set, for a gate
definition to evaluate without an exception: a rectangle or polygon on two
resolvable channels with enough vertices.  Threshold gates always raise
(see claim C1) and unknown types always raise. -/
def gateOk (cols : List Col) : GateDef → Prop
  | .threshold _ _ _ => False
  | .unknown _ => False
  | .rectangle chs vs =>
    (∃ ds, validateChannelsList cols chs = Except.ok ds) ∧ chs.length = 2 ∧ vs ≠ []
  | .polygon chs vs =>
    (∃ ds, validateChannelsList cols chs = Except.ok ds) ∧ chs.length = 2 ∧ 3 ≤ vs.length

/-- A gate satisfying `gateOk` for the frame's flattened columns evaluates
successfully, producing a frame with the flattened columns. -/
theorem applyGateRes_ok (df : DF) (g : GateDef) (hok : gateOk (df.cols.map normCol) g) :
    ∃ r, applyGateRes df g = Except.ok r ∧ r.cols = df.cols.map normCol := by
  cases g with
  | threshold ch mn mx => exact hok.elim
  | unknown s => exact hok.elim
  | rectangle chs vs =>
    obtain ⟨⟨ds, hds⟩, hlen, hvs⟩ := hok
    obtain ⟨hdslen, hdsmem⟩ := validateChannelsList_ok_props (df.cols.map normCol) chs ds hds
    rw [hlen] at hdslen
    obtain ⟨d1, d2, hds2⟩ := List.length_eq_two.mp hdslen
    subst hds2
    cases vs with
    | nil => exact absurd rfl hvs
    | cons v vrest =>
      obtain ⟨i1, hi1⟩ := Option.isSome_iff_exists.mp (hdsmem d1 (by simp))
      obtain ⟨i2, hi2⟩ := Option.isSome_iff_exists.mp (hdsmem d2 (by simp))
      simp only [applyGateRes, DF.normCols, DF.colIdx, hds, vertMinX, vertMaxX, vertMinY,
        vertMaxY, pyMinList, pyMaxList, List.map_cons, hi1, hi2]
      exact ⟨_, rfl, rfl⟩
  | polygon chs vs =>
    obtain ⟨⟨ds, hds⟩, hlen, hvs⟩ := hok
    obtain ⟨hdslen, hdsmem⟩ := validateChannelsList_ok_props (df.cols.map normCol) chs ds hds
    rw [hlen] at hdslen
    obtain ⟨d1, d2, hds2⟩ := List.length_eq_two.mp hdslen
    subst hds2
    obtain ⟨i1, hi1⟩ := Option.isSome_iff_exists.mp (hdsmem d1 (by simp))
    obtain ⟨i2, hi2⟩ := Option.isSome_iff_exists.mp (hdsmem d2 (by simp))
    simp only [applyGateRes, DF.normCols, DF.colIdx, hds, hi1, hi2,
      if_neg (by omega : ¬ vs.length < 3)]
    exact ⟨_, rfl, rfl⟩

/-- When every marker with a threshold is a column, a rule phase never
raises and keeps the column list. -/
theorem applyRules_ok (pos : Bool) (th : List (String × ℚ)) (ms : List String) :
    ∀ (df : DF) (w : List String),
      (∀ m t, assocFind th m = some t → colMem df.cols m = true) →
      ∃ s ws, applyRules pos th df w ms = Except.ok (s, ws) ∧ s.cols = df.cols := by
  induction ms with
  | nil => intro df w _; exact ⟨df, w, rfl, rfl⟩
  | cons m ms ih =>
    intro df w hcols
    cases ht : assocFind th m with
    | none =>
      obtain ⟨s, ws, hrun, hc⟩ := ih df (w ++ [m]) hcols
      refine ⟨s, ws, ?_, hc⟩
      simp only [applyRules, ht]
      exact hrun
    | some t =>
      obtain ⟨i, hi⟩ := Option.isSome_iff_exists.mp (hcols m t ht)
      obtain ⟨s, ws, hrun, hc⟩ :=
        ih (df.filterRows (fun r => markerKeep pos (rowVal r i) t)) w
          (fun m1 t1 h1 => hcols m1 t1 h1)
      refine ⟨s, ws, ?_, hc⟩
      simp only [applyRules, ht]
      rw [show DF.colIdx df m = some i from hi]
      exact hrun

/-- When every marker with a threshold is a column, the Marker Rule
Applicator never raises and keeps the column list. -/
theorem applyMarkerRules_ok (df : DF) (rules : Celltype) (th : List (String × ℚ))
    (hcols : ∀ m t, assocFind th m = some t → colMem df.cols m = true) :
    ∃ s ws, applyMarkerRules df rules th = Except.ok (s, ws) ∧ s.cols = df.cols := by
  obtain ⟨s1, w1, h1, hc1⟩ := applyRules_ok true th rules.positive df [] hcols
  obtain ⟨s2, w2, h2, hc2⟩ := applyRules_ok false th rules.negative s1 w1
    (fun m t ht => hc1 ▸ hcols m t ht)
  refine ⟨s2, w2, ?_, hc1 ▸ hc2⟩
  simp only [applyMarkerRules, h1]
  exact h2

/-- Invariant of the threshold walker: every produced marker names an
actual dataframe column. -/
theorem autoThrGo_keys (df : DF) (panel : List (String × PanelEntry)) :
    ∀ (cols : List Col) (acc th : List (String × ℚ)),
      (∀ m t, (m, t) ∈ acc → Col.str m ∈ df.cols) →
      (∀ c ∈ cols, c ∈ df.cols) →
      autoThrGo df panel cols acc = Except.ok th →
      ∀ m t, (m, t) ∈ th → Col.str m ∈ df.cols := by
  intro cols
  induction cols with
  | nil =>
    intro acc th hacc _ hok
    simp only [autoThrGo, Except.ok.injEq] at hok
    exact hok ▸ hacc
  | cons c rest ih =>
    intro acc th hacc hcols hok
    have hrest : ∀ c1 ∈ rest, c1 ∈ df.cols := fun c1 h1 => hcols c1 (by simp [h1])
    match c with
    | .tup a b => exact ih acc th hacc hrest hok
    | .str m =>
      simp only [autoThrGo] at hok
      split at hok
      · exact ih acc th hacc hrest hok
      · split at hok
        · exact ih acc th hacc hrest hok
        · split at hok
          · exact ih acc th hacc hrest hok
          · split at hok
            · exact Except.noConfusion hok
            · next t0 heq =>
              refine ih (acc ++ [(m, t0)]) th ?_ hrest hok
              intro m1 t1 hm1
              rcases List.mem_append.mp hm1 with h1 | h1
              · exact hacc m1 t1 h1
              · have hp : m1 = m ∧ t1 = t0 := by simpa using h1
                exact hp.1 ▸ hcols (Col.str m) (by simp)

/-- Threshold-table keys are actual columns of the root frame. -/
theorem computeAutoThresholds_keys (df : DF) (panel : List (String × PanelEntry))
    (th : List (String × ℚ)) (h : computeAutoThresholds df panel = Except.ok th) :
    ∀ m t, assocFind th m = some t → Col.str m ∈ df.cols := by
  intro m t hm
  exact autoThrGo_keys df panel df.cols [] th (by simp) (fun c hc => hc) h m t
    (assocFind_mem th m t hm)

/-- Updating a value does not change which keys are found. -/
theorem assocFind_updateAssoc_isSome {α : Type} :
    ∀ (l : List (String × α)) (key : String) (nv : α) (k : String),
      (assocFind (updateAssoc l key nv) k).isSome = (assocFind l k).isSome := by
  intro l
  induction l with
  | nil => intro key nv k; rfl
  | cons a rest ih =>
    intro key nv k
    obtain ⟨a1, a2⟩ := a
    by_cases hak : a1 = key
    · subst hak
      by_cases hk : a1 = k
      · subst hk; simp [updateAssoc, assocFind]
      · simp [updateAssoc, assocFind, hk]
    · by_cases hk : a1 = k
      · subst hk; simp [updateAssoc, assocFind, hak]
      · simp [updateAssoc, assocFind, hak, hk, ih]

/-- A lookup in an updated list returns the new value or an old one. -/
theorem assocFind_updateAssoc_cases {α : Type} :
    ∀ (l : List (String × α)) (key : String) (nv : α) (k : String) (v : α),
      assocFind (updateAssoc l key nv) k = some v → v = nv ∨ assocFind l k = some v := by
  intro l
  induction l with
  | nil => intro key nv k v h; simp [updateAssoc, assocFind] at h
  | cons a rest ih =>
    intro key nv k v h
    obtain ⟨a1, a2⟩ := a
    by_cases hak : a1 = key
    · subst hak
      by_cases hk : a1 = k
      · subst hk
        simp only [updateAssoc, if_pos rfl, assocFind] at h
        exact Or.inl (by simpa using h.symm)
      · simp only [updateAssoc, if_pos rfl, assocFind, if_neg hk] at h
        exact Or.inr (by simpa [assocFind, hk] using h)
    · by_cases hk : a1 = k
      · subst hk
        simp only [updateAssoc, if_neg hak, assocFind, if_pos rfl] at h ⊢
        exact Or.inr h
      · simp only [updateAssoc, if_neg hak, assocFind, if_neg hk] at h ⊢
        exact ih key nv k v h

/-- New entries are appended at the end, so found entries stay found. -/
theorem assocFind_commit_mono {α : Type} (g : List (String × α)) (ct : String) (d : α)
    (k : String) (h : (assocFind g k).isSome = true) :
    (assocFind (g ++ [(ct, d)]) k).isSome = true := by
  obtain ⟨v, hv⟩ := Option.isSome_iff_exists.mp h
  rw [assocFind_append_left g [(ct, d)] k v hv]
  rfl

/-- The committed key is found after appending. -/
theorem assocFind_commit_self {α : Type} (g : List (String × α)) (ct : String) (d : α) :
    (assocFind (g ++ [(ct, d)]) ct).isSome = true := by
  cases hg : assocFind g ct with
  | some v => rw [assocFind_append_left g [(ct, d)] ct v hg]; rfl
  | none => rw [assocFind_append_right g [(ct, d)] ct hg]; simp [assocFind]

/-- A lookup in the extended list is an old entry or the new one. -/
theorem assocFind_commit_cases {α : Type} (g : List (String × α)) (ct : String) (d : α)
    (k : String) (v : α) (h : assocFind (g ++ [(ct, d)]) k = some v) :
    assocFind g k = some v ∨ (k = ct ∧ v = d) := by
  cases hg : assocFind g k with
  | some v1 =>
    rw [assocFind_append_left g [(ct, d)] k v1 hg] at h
    exact Or.inl h
  | none =>
    rw [assocFind_append_right g [(ct, d)] k hg] at h
    simp only [assocFind] at h
    split at h
    · next heq => exact Or.inr ⟨heq.symm, by simpa using h.symm⟩
    · simp [assocFind] at h

/-- A found key in the extended list was found before or is the new one. -/
theorem assocFind_commit_isSome_cases {α : Type} (g : List (String × α)) (ct : String)
    (d : α) (k : String) (h : (assocFind (g ++ [(ct, d)]) k).isSome = true) :
    (assocFind g k).isSome = true ∨ k = ct := by
  obtain ⟨v, hv⟩ := Option.isSome_iff_exists.mp h
  rcases assocFind_commit_cases g ct d k v hv with h1 | ⟨h1, _⟩
  · exact Or.inl (by rw [h1]; rfl)
  · exact Or.inr h1

/-- Loop invariant of the resolver for the success argument: both the root
frame and every gated table carry the raw or flattened column list, the
pending names are exactly the not-yet-resolved configuration keys, without
duplicates. -/
structure RunInv (cts : List (String × Celltype)) (dfCols : List Col) (st : GState) : Prop where
  raw : colsOk dfCols st.dfRaw.cols
  gcols : ∀ k t, assocFind st.gated k = some t → colsOk dfCols t.cols
  pkeys : ∀ k, k ∈ st.pending → (assocFind cts k).isSome = true
  pnodup : st.pending.Nodup
  cover : ∀ k, (assocFind cts k).isSome = true →
    k ∈ st.pending ∨ (assocFind st.gated k).isSome = true
  disj : ∀ k, (assocFind st.gated k).isSome = true → k ∉ st.pending

/-- Committing a table with a valid column state preserves the invariant,
keeps old entries and resolves the committed name. -/
theorem runInv_commit (cts : List (String × Celltype)) (dfCols : List Col) (st : GState)
    (ct : String) (d : DF) (hinv : RunInv cts dfCols st) (hd : colsOk dfCols d.cols) :
    RunInv cts dfCols (commit st ct d) ∧
    (∀ k, (assocFind st.gated k).isSome = true →
      (assocFind (commit st ct d).gated k).isSome = true) ∧
    (assocFind (commit st ct d).gated ct).isSome = true := by
  refine ⟨?_, ?_, ?_⟩
  · refine ⟨hinv.raw, ?_, ?_, ?_, ?_, ?_⟩
    · intro k t hk
      rcases assocFind_commit_cases st.gated ct d k t hk with h1 | ⟨_, h1⟩
      · exact hinv.gcols k t h1
      · exact h1 ▸ hd
    · intro k hk
      exact hinv.pkeys k ((eraseName_sublist st.pending ct).subset hk)
    · exact (eraseName_sublist st.pending ct).nodup hinv.pnodup
    · intro k hk
      rcases hinv.cover k hk with h1 | h1
      · by_cases hke : k = ct
        · exact Or.inr (hke ▸ assocFind_commit_self st.gated ct d)
        · exact Or.inl (eraseName_mem st.pending ct k hke h1)
      · exact Or.inr (assocFind_commit_mono st.gated ct d k h1)
    · intro k hk
      rcases assocFind_commit_isSome_cases st.gated ct d k hk with h1 | h1
      · intro hmem
        exact hinv.disj k h1 ((eraseName_sublist st.pending ct).subset hmem)
      · exact h1 ▸ eraseName_not_mem st.pending hinv.pnodup ct
  · intro k hk
    exact assocFind_commit_mono st.gated ct d k hk
  · exact assocFind_commit_self st.gated ct d

/-- Writing back the flattened parent preserves the invariant, the found
keys and the pending set. -/
theorem runInv_writeParent (cts : List (String × Celltype)) (dfCols : List Col)
    (st : GState) (loc : ParentLoc) (dfParent : DF) (hinv : RunInv cts dfCols st)
    (hloc : match loc with
      | .root => dfParent = st.dfRaw
      | .inGated p => assocFind st.gated p = some dfParent) :
    RunInv cts dfCols (writeParent st loc dfParent.normCols) ∧
    (∀ k, (assocFind st.gated k).isSome = true →
      (assocFind (writeParent st loc dfParent.normCols).gated k).isSome = true) ∧
    (writeParent st loc dfParent.normCols).pending = st.pending := by
  cases loc with
  | root =>
    have hdp : dfParent = st.dfRaw := hloc
    subst hdp
    refine ⟨⟨?_, hinv.gcols, hinv.pkeys, hinv.pnodup, hinv.cover, hinv.disj⟩,
      fun k hk => hk, rfl⟩
    exact Or.inr (colsOk_map dfCols st.dfRaw.cols hinv.raw)
  | inGated p =>
    have hpc : colsOk dfCols dfParent.cols := hinv.gcols p dfParent hloc
    refine ⟨⟨hinv.raw, ?_, hinv.pkeys, hinv.pnodup, ?_, ?_⟩, ?_, rfl⟩
    · intro k t hk
      rcases assocFind_updateAssoc_cases st.gated p dfParent.normCols k t hk with h1 | h1
      · exact h1 ▸ Or.inr (colsOk_map dfCols dfParent.cols hpc)
      · exact hinv.gcols k t h1
    · intro k hk
      rcases hinv.cover k hk with h1 | h1
      · exact Or.inl h1
      · exact Or.inr (by
          show (assocFind (updateAssoc st.gated p dfParent.normCols) k).isSome = true
          rw [assocFind_updateAssoc_isSome st.gated p dfParent.normCols k]
          exact h1)
    · intro k hk
      refine hinv.disj k ?_
      rw [← assocFind_updateAssoc_isSome st.gated p dfParent.normCols k]
      exact hk
    · intro k hk
      show (assocFind (updateAssoc st.gated p dfParent.normCols) k).isSome = true
      rw [assocFind_updateAssoc_isSome st.gated p dfParent.normCols k]
      exact hk

/-- A pending population is ready when its parent is the root or already
gated. -/
def parentReady (cts : List (String × Celltype)) (gated : List (String × DF))
    (ct : String) : Prop :=
  ∃ cfg, assocFind cts ct = some cfg ∧
    (cfg.parent = none ∨ ∃ p, cfg.parent = some p ∧ (assocFind gated p).isSome = true)

/-- A resolution step with an available parent succeeds, preserves the
invariant, keeps resolved names resolved, erases exactly the processed
name from pending, and resolves it. -/
theorem stepResolved_ok (cts : List (String × Celltype)) (th : List (String × ℚ))
    (dfCols : List Col) (st : GState) (ct : String) (cfg : Celltype) (dfParent : DF)
    (loc : ParentLoc) (hinv : RunInv cts dfCols st)
    (hloc : match loc with
      | .root => dfParent = st.dfRaw
      | .inGated p => assocFind st.gated p = some dfParent)
    (hgok : ∀ g, cfg.gate = some g → gateOk (dfCols.map normCol) g)
    (hth : ∀ m t, assocFind th m = some t → Col.str m ∈ dfCols) :
    ∃ st', stepResolved th st ct cfg dfParent loc = Except.ok st' ∧ RunInv cts dfCols st' ∧
      (∀ k, (assocFind st.gated k).isSome = true → (assocFind st'.gated k).isSome = true) ∧
      st'.pending = eraseName st.pending ct ∧
      (assocFind st'.gated ct).isSome = true := by
  have hpcols : colsOk dfCols dfParent.cols := by
    cases loc with
    | root =>
      rw [show dfParent = st.dfRaw from hloc]
      exact hinv.raw
    | inGated p => exact hinv.gcols p dfParent hloc
  have hmk : ∀ (d : DF), colsOk dfCols d.cols →
      ∀ m t, assocFind th m = some t → colMem d.cols m = true := by
    intro d hd m t hmt
    exact (colIdxAux_isSome m d.cols 0).mpr (colsOk_strMem dfCols d.cols hd m (hth m t hmt))
  cases hgate : cfg.gate with
  | none =>
    obtain ⟨s, ws, hmr, hsc⟩ := applyMarkerRules_ok dfParent cfg th (hmk dfParent hpcols)
    obtain ⟨hinv2, hmono, hself⟩ := runInv_commit cts dfCols st ct s hinv
      (by rw [hsc]; exact hpcols)
    refine ⟨commit st ct s, ?_, hinv2, hmono, rfl, hself⟩
    simp only [stepResolved, hgate, hmr]
  | some g =>
    have hok : gateOk (dfParent.cols.map normCol) g := by
      rw [colsOk_map dfCols dfParent.cols hpcols]
      exact hgok g hgate
    obtain ⟨dfStage, hgr, hstc⟩ := applyGateRes_ok dfParent g hok
    have hstcOk : colsOk dfCols dfStage.cols := by
      rw [hstc, colsOk_map dfCols dfParent.cols hpcols]
      exact Or.inr rfl
    obtain ⟨s, ws, hmr, hsc⟩ := applyMarkerRules_ok dfStage cfg th (hmk dfStage hstcOk)
    obtain ⟨hinvW, hmonoW, hpendW⟩ := runInv_writeParent cts dfCols st loc dfParent hinv hloc
    obtain ⟨hinv2, hmono2, hself⟩ := runInv_commit cts dfCols
      (writeParent st loc dfParent.normCols) ct s hinvW (by rw [hsc]; exact hstcOk)
    refine ⟨commit (writeParent st loc dfParent.normCols) ct s, ?_, hinv2,
      fun k hk => hmono2 k (hmonoW k hk), ?_, hself⟩
    · simp only [stepResolved, hgate, applyGate, hgr, hmr]
    · show eraseName (writeParent st loc dfParent.normCols).pending ct = eraseName st.pending ct
      rw [hpendW]

/-- One inner-loop iteration succeeds and makes the processed name resolved
whenever its parent is ready. -/
theorem stepCelltype_ok (cts : List (String × Celltype)) (th : List (String × ℚ))
    (dfCols : List Col) (st : GState) (ct : String) (hinv : RunInv cts dfCols st)
    (hct : (assocFind cts ct).isSome = true)
    (hgates : ∀ k cfg, assocFind cts k = some cfg → ∀ g, cfg.gate = some g →
      gateOk (dfCols.map normCol) g)
    (hth : ∀ m t, assocFind th m = some t → Col.str m ∈ dfCols) :
    ∃ st', stepCelltype cts th st ct = Except.ok st' ∧ RunInv cts dfCols st' ∧
      (∀ k, (assocFind st.gated k).isSome = true → (assocFind st'.gated k).isSome = true) ∧
      st'.pending.Sublist st.pending ∧
      (parentReady cts st.gated ct → (assocFind st'.gated ct).isSome = true) := by
  obtain ⟨cfg, hcfg⟩ := Option.isSome_iff_exists.mp hct
  cases hpar : cfg.parent with
  | none =>
    obtain ⟨st', hrun, hinv', hmono, hpend, hself⟩ :=
      stepResolved_ok cts th dfCols st ct cfg st.dfRaw .root hinv rfl (hgates ct cfg hcfg) hth
    refine ⟨st', ?_, hinv', hmono, by rw [hpend]; exact eraseName_sublist st.pending ct,
      fun _ => hself⟩
    simp only [stepCelltype, hcfg, hpar]
    exact hrun
  | some p =>
    cases hgp : assocFind st.gated p with
    | none =>
      refine ⟨st, ?_, hinv, fun k hk => hk, List.Sublist.refl _, ?_⟩
      · simp only [stepCelltype, hcfg, hpar, hgp]
      · intro hready
        obtain ⟨cfg1, hcfg1, hcase⟩ := hready
        have hc1 : cfg1 = cfg := Option.some.inj (hcfg1.symm.trans hcfg)
        subst hc1
        rcases hcase with h1 | ⟨p1, hp1, hps⟩
        · rw [hpar] at h1; exact Option.noConfusion h1
        · rw [hpar] at hp1
          have hpp : p = p1 := Option.some.inj hp1
          rw [← hpp, hgp] at hps
          exact absurd hps (by simp)
    | some dfp =>
      obtain ⟨st', hrun, hinv', hmono, hpend, hself⟩ :=
        stepResolved_ok cts th dfCols st ct cfg dfp (.inGated p) hinv hgp
          (hgates ct cfg hcfg) hth
      refine ⟨st', ?_, hinv', hmono, by rw [hpend]; exact eraseName_sublist st.pending ct,
        fun _ => hself⟩
      simp only [stepCelltype, hcfg, hpar, hgp]
      exact hrun

/-- A pass over a snapshot of key names succeeds, shrinks the pending set
and resolves every snapshot name whose parent was ready at pass start. -/
theorem runPassAux_ok (cts : List (String × Celltype)) (th : List (String × ℚ))
    (dfCols : List Col)
    (hgates : ∀ k cfg, assocFind cts k = some cfg → ∀ g, cfg.gate = some g →
      gateOk (dfCols.map normCol) g)
    (hth : ∀ m t, assocFind th m = some t → Col.str m ∈ dfCols) :
    ∀ (L : List String) (st : GState),
      (∀ k ∈ L, (assocFind cts k).isSome = true) →
      RunInv cts dfCols st →
      ∃ st', runPassAux cts th L st = Except.ok st' ∧ RunInv cts dfCols st' ∧
        (∀ k, (assocFind st.gated k).isSome = true → (assocFind st'.gated k).isSome = true) ∧
        st'.pending.Sublist st.pending ∧
        (∀ ct ∈ L, parentReady cts st.gated ct → (assocFind st'.gated ct).isSome = true) := by
  intro L
  induction L with
  | nil =>
    intro st _ hinv
    exact ⟨st, rfl, hinv, fun k hk => hk, List.Sublist.refl _, by simp⟩
  | cons ct rest ih =>
    intro st hK hinv
    obtain ⟨st1, hstep, hinv1, hmono1, hsub1, hres1⟩ :=
      stepCelltype_ok cts th dfCols st ct hinv (hK ct (by simp)) hgates hth
    obtain ⟨st', hrest, hinv', hmono', hsub', hres'⟩ :=
      ih st1 (fun k hk => hK k (by simp [hk])) hinv1
    refine ⟨st', ?_, hinv', fun k hk => hmono' k (hmono1 k hk), hsub'.trans hsub1, ?_⟩
    · simp only [runPassAux, hstep]
      exact hrest
    · intro c hc hcready
      rcases List.mem_cons.mp hc with h1 | h1
      · subst h1
        exact hmono' c (hres1 hcready)
      · refine hres' c h1 ?_
        obtain ⟨cfg, hcfg, hcase⟩ := hcready
        refine ⟨cfg, hcfg, ?_⟩
        rcases hcase with hnone | ⟨p, hp, hps⟩
        · exact Or.inl hnone
        · exact Or.inr ⟨p, hp, hmono1 p hps⟩

/-- With an acyclic, fully-defined parent graph a nonempty pass strictly
shrinks the pending set. -/
theorem runPass_progress (cts : List (String × Celltype)) (th : List (String × ℚ))
    (dfCols : List Col) (depth : String → ℕ)
    (hdepth : ∀ ct cfg, assocFind cts ct = some cfg → ∀ p, cfg.parent = some p →
      (assocFind cts p).isSome = true ∧ depth p < depth ct)
    (hgates : ∀ k cfg, assocFind cts k = some cfg → ∀ g, cfg.gate = some g →
      gateOk (dfCols.map normCol) g)
    (hth : ∀ m t, assocFind th m = some t → Col.str m ∈ dfCols)
    (st : GState) (hinv : RunInv cts dfCols st) (hne : st.pending ≠ []) :
    ∃ st', runPassAux cts th st.pending st = Except.ok st' ∧ RunInv cts dfCols st' ∧
      st'.pending.length < st.pending.length := by
  obtain ⟨st', hrun, hinv', _, hsub, hres⟩ :=
    runPassAux_ok cts th dfCols hgates hth st.pending st (fun k hk => hinv.pkeys k hk) hinv
  obtain ⟨m, hm, hmin⟩ := list_argmin depth st.pending hne
  have hready : parentReady cts st.gated m := by
    obtain ⟨cfg, hcfg⟩ := Option.isSome_iff_exists.mp (hinv.pkeys m hm)
    refine ⟨cfg, hcfg, ?_⟩
    cases hpar : cfg.parent with
    | none => exact Or.inl rfl
    | some p =>
      obtain ⟨hpkey, hplt⟩ := hdepth m cfg hcfg p hpar
      rcases hinv.cover p hpkey with h1 | h1
      · exact absurd (hmin p h1) (by omega)
      · exact Or.inr ⟨p, rfl, h1⟩
  have hmres := hres m hm hready
  have hmnot : m ∉ st'.pending := hinv'.disj m hmres
  exact ⟨st', hrun, hinv', sublist_length_lt hsub m hm hmnot⟩

/-- With enough fuel the bounded pass loop empties the pending set. -/
theorem iterPasses_ok (cts : List (String × Celltype)) (th : List (String × ℚ))
    (dfCols : List Col) (depth : String → ℕ)
    (hdepth : ∀ ct cfg, assocFind cts ct = some cfg → ∀ p, cfg.parent = some p →
      (assocFind cts p).isSome = true ∧ depth p < depth ct)
    (hgates : ∀ k cfg, assocFind cts k = some cfg → ∀ g, cfg.gate = some g →
      gateOk (dfCols.map normCol) g)
    (hth : ∀ m t, assocFind th m = some t → Col.str m ∈ dfCols) :
    ∀ (fuel : ℕ) (st : GState), RunInv cts dfCols st → st.pending.length ≤ fuel →
      ∃ st', iterPasses cts th fuel st = Except.ok st' ∧ RunInv cts dfCols st' ∧
        st'.pending = [] := by
  intro fuel
  induction fuel with
  | zero =>
    intro st hinv hlen
    have hpe : st.pending = [] := List.length_eq_zero.mp (Nat.le_zero.mp hlen)
    exact ⟨st, rfl, hinv, hpe⟩
  | succ n ih =>
    intro st hinv hlen
    by_cases hpe : st.pending = []
    · refine ⟨st, ?_, hinv, hpe⟩
      simp only [iterPasses, if_pos hpe]
    · obtain ⟨st1, hpass, hinv1, hlt⟩ :=
        runPass_progress cts th dfCols depth hdepth hgates hth st hinv hpe
      obtain ⟨st', hiter, hinv', hpend⟩ := ih st1 hinv1 (by omega)
      refine ⟨st', ?_, hinv', hpend⟩
      simp only [iterPasses, if_neg hpe, runPass, hpass]
      exact hiter

/-- Claim C6 is false as stated: an acyclic graph with every parent defined
need not resolve every population — a failing gate evaluation (here a
rectangle gate on channels missing from the frame) aborts the run with a
channel-not-found error before anything resolves. -/
theorem c6_counterexample :
    runGatingTree dfSmall expBad =
      Except.error (Err.channelNotFound ("x") [Col.str ("a")]) := by decide

/-- Claim C6 (amended): the resolver always terminates within its bounded
passes; on the concrete cycle `A -> B -> C -> A` it fails with the
unresolved-dependency error listing exactly `A, B, C`; and when the parent
graph is acyclic (witnessed by a depth function) with every parent
defined, duplicate-free population names, a successful threshold
computation and gates that evaluate successfully, every population is
resolved and the pending set empties. -/
theorem c6_amended :
    runGatingTree (⟨[], []⟩ : DF) expCycle =
      Except.error (Err.unresolvedTree [("A"), ("B"), ("C")]) ∧
    ∀ (df : DF) (exp : Experiment) (depth : String → ℕ) (th : List (String × ℚ)),
      computeAutoThresholds df exp.panel = Except.ok th →
      (∀ ct cfg, assocFind exp.celltypes ct = some cfg → ∀ p, cfg.parent = some p →
        (assocFind exp.celltypes p).isSome = true ∧ depth p < depth ct) →
      (∀ ct cfg, assocFind exp.celltypes ct = some cfg → ∀ g, cfg.gate = some g →
        gateOk (df.cols.map normCol) g) →
      (exp.celltypes.map Prod.fst).Nodup →
      ∃ gated, runGatingTree df exp = Except.ok gated ∧
        ∀ ct, (assocFind exp.celltypes ct).isSome = true →
          (assocFind gated ct).isSome = true := by
  constructor
  · decide
  · intro df exp depth th hth hdepth hgates hnodup
    have hthkeys := computeAutoThresholds_keys df exp.panel th hth
    have hinv0 : RunInv exp.celltypes df.cols ⟨df, [], exp.celltypes.map Prod.fst⟩ := by
      refine ⟨Or.inl rfl, ?_, ?_, hnodup, ?_, ?_⟩
      · intro k t hk; simp [assocFind] at hk
      · intro k hk
        exact (assocFind_isSome_iff exp.celltypes k).mpr hk
      · intro k hk
        exact Or.inl ((assocFind_isSome_iff exp.celltypes k).mp hk)
      · intro k hk; simp [assocFind] at hk
    obtain ⟨final, hiter, hinvf, hpend⟩ :=
      iterPasses_ok exp.celltypes th df.cols depth hdepth hgates hthkeys
        ((exp.celltypes.map Prod.fst).length + 4) ⟨df, [], exp.celltypes.map Prod.fst⟩
        hinv0 (by
          show (List.map Prod.fst exp.celltypes).length ≤
            (List.map Prod.fst exp.celltypes).length + 4
          omega)
    refine ⟨final.gated, ?_, ?_⟩
    · simp only [List.length_map] at hiter
      simp [runGatingTree, hth, hiter, hpend]
    · intro ct hct
      rcases hinvf.cover ct hct with h1 | h1
      · rw [hpend] at h1
        exact absurd h1 (by simp)
      · exact h1

/-- The depth function witnessing acyclicity of the worked example. -/
def depthAB : String → ℕ := fun s => if s = ("P2") then 1 else 0

/-- Witness for the amended claim C6: the worked two-population example
resolves completely. -/
theorem c6_witness :
    ∃ gated, runGatingTree dfRoot expAB = Except.ok gated ∧
      ∀ ct, (assocFind expAB.celltypes ct).isSome = true →
        (assocFind gated ct).isSome = true := by
  refine c6_amended.2 dfRoot expAB depthAB [(("CD3"), 37/2)] (by decide) ?_ ?_ (by decide)
  · intro ct cfg h p hp
    simp only [expAB, assocFind] at h
    split at h
    · next he =>
      have hc : cfg = ⟨none,
          some (GateDef.rectangle [("FSC-A"), ("SSC-A")] [(0, 0), (100, 100)]), [], []⟩ := by
        simpa using h.symm
      subst hc
      exact Option.noConfusion hp
    · split at h
      · next he2 =>
        have hc : cfg = ⟨some ("P1"), none, [("CD3")], []⟩ := by simpa using h.symm
        subst hc
        have hpp : ("P1") = p := Option.some.inj hp
        constructor
        · rw [← hpp]; decide
        · rw [← hpp, ← he2]; decide
      · simp [assocFind] at h
  · intro ct cfg h g hg
    simp only [expAB, assocFind] at h
    split at h
    · next he =>
      have hc : cfg = ⟨none,
          some (GateDef.rectangle [("FSC-A"), ("SSC-A")] [(0, 0), (100, 100)]), [], []⟩ := by
        simpa using h.symm
      subst hc
      have hgr : g = GateDef.rectangle [("FSC-A"), ("SSC-A")] [(0, 0), (100, 100)] :=
        (Option.some.inj hg).symm
      subst hgr
      exact ⟨⟨[("FSC-A"), ("SSC-A")], by decide⟩, by decide, by decide⟩
    · split at h
      · next he2 =>
        have hc : cfg = ⟨some ("P1"), none, [("CD3")], []⟩ := by simpa using h.symm
        subst hc
        exact Option.noConfusion hg
      · simp [assocFind] at h

end Facs
